import Mathlib

/-!
# cgar_collect: a verification development

A shallow embedding of `cgar_collect` (package `cgroupcollect` and `main`) and
theorems about it.

Conventions of the embedding

* A Go `map[string]V` is a `GoMap V`: an association list whose keys are kept
  pairwise distinct by `GoMap.set` (assignment `m[k] = v`).  A `nil` map result is
  `none` of an `Option`.
* Go strings are `String`; `strings.TrimSuffix` and `strings.HasSuffix` are written
  over the character data exactly as the library defines them over the bytes.
* The file system (`os.ReadFile`, `ioutil.ReadDir`) is a parameter `FileSystem`.
* The syslog writer is an output list of messages.
* Goroutines, the two `sync.WaitGroup`s and the two channels of one run are a
  labelled transition system `step` on `RunState`.
-/

namespace Cgar

/-! ## Go maps -/

/-- A Go map with string keys, as an association list. -/
abbrev GoMap (V : Type) := List (String × V)

namespace GoMap

/-- The lookup `v, ok := m[k]`. -/
def get? {V : Type} : GoMap V → String → Option V
  | [], _ => none
  | (k', v) :: t, k => if k' = k then some v else get? t k

/-- The read `m[k]`, giving the zero value `d` for a missing key. -/
def getD {V : Type} (m : GoMap V) (k : String) (d : V) : V :=
  (get? m k).getD d

/-- The assignment `m[k] = v`. -/
def set {V : Type} : GoMap V → String → V → GoMap V
  | [], k, v => [(k, v)]
  | (k', v') :: t, k, v => if k' = k then (k, v) :: t else (k', v') :: set t k v

/-- The keys of the map. -/
def keys {V : Type} (m : GoMap V) : List String := m.map Prod.fst

/-- The builtin `len(m)`. -/
def len {V : Type} (m : GoMap V) : Nat := m.length

end GoMap

/-! ## Package `strings` -/

/-- Go `strings.HasSuffix`: `len(s) >= len(suffix) && s[len(s)-len(suffix):] == suffix`. -/
def HasSuffix (s suffix : String) : Bool :=
  decide (s.data.length ≥ suffix.data.length) &&
    decide (s.data.drop (s.data.length - suffix.data.length) = suffix.data)

/-- Go `strings.TrimSuffix`: `s[:len(s)-len(suffix)]` when `s` has the suffix, else `s`. -/
def TrimSuffix (s suffix : String) : String :=
  if HasSuffix s suffix then ⟨s.data.take (s.data.length - suffix.data.length)⟩ else s

/-! ## The file system -/

/-- What `ioutil.ReadDir` reports of one directory entry (`fs.FileInfo`). -/
structure FileInfo where
  Name : String
  IsDir : Bool
deriving DecidableEq, Repr

/-- The file system the program reads.  `ReadFile` is `os.ReadFile` (content or the
error text).  `entries` is the real content of a directory, in the order
`ioutil.ReadDir` returns it, and `listErr` is the error a listing of the directory
fails with, if it fails. -/
structure FileSystem where
  ReadFile : String → Except String String
  entries : String → List FileInfo
  listErr : String → Option String

/-- Go `ioutil.ReadDir`: the pair `(files, err)`; `files` is `nil` when `err` is set. -/
def ioutil_ReadDir (fs : FileSystem) (dirname : String) : List FileInfo × Option String :=
  match fs.listErr dirname with
  | some err => ([], some err)
  | none => (fs.entries dirname, none)

/-! ## Package `cgroupcollect` -/

/-- The files of the `"memory"` controller (cgroupcollect.go, line 18). -/
def memoryFiles : List String :=
  ["memory.current", "memory.high", "memory.min", "memory.pressure", "memory.low",
   "memory.stat", "memory.swap.high", "memory.max", "memory.swap.current", "memory.swap.max"]

/-- The body of the loop over the files (cgroupcollect.go, lines 19-23): the state is
the map `cgroupData` and the messages logged so far. -/
def readFileInto (fs : FileSystem) (cgroupPath : String)
    (acc : GoMap String × List String) (file : String) : GoMap String × List String :=
  match fs.ReadFile (cgroupPath ++ "/" ++ file) with
  | .ok content => (acc.1.set file (TrimSuffix content "\n"), acc.2)
  | .error err => (acc.1, acc.2 ++ [err])

/-- Go `ReadCgroupController`: the returned map (`none` for `nil`) and the messages
written to the log. -/
def ReadCgroupController (fs : FileSystem) (cgroupPath controller : String) :
    Option (GoMap String) × List String :=
  if controller = "memory" then
    let r := memoryFiles.foldl (readFileInto fs cgroupPath) ([], [])
    (some r.1, r.2)
  else
    (none, ["Controller \"" ++ controller ++ "\" is currently not supported."])

/-- A message on the data channel: `map[string](map[string](string))`. -/
abbrev Message := GoMap (GoMap String)

/-- An invocation of `GetFromTree`: its arguments `cgroup`, `depth`, `controllers`. -/
structure Call where
  cgroup : String
  depth : Int
  controllers : List String
deriving DecidableEq, Repr

/-- The path of a cgroup (cgroupcollect.go, line 39). -/
def cgroupPathOf (cgroup : String) : String := "/sys/fs/cgroup/" ++ cgroup

/-- The statement `cgroupData[cgroup][k] = v` (cgroupcollect.go, line 53). -/
def assignMetric (cgroup : String) (cgroupData : Message) (kv : String × String) : Message :=
  cgroupData.set cgroup ((cgroupData.getD cgroup []).set kv.1 kv.2)

/-- The body of the loop over the controllers (cgroupcollect.go, lines 50-55). -/
def collectController (fs : FileSystem) (cgroup : String)
    (acc : Message × List String) (controller : String) : Message × List String :=
  match ReadCgroupController fs (cgroupPathOf cgroup) controller with
  | (some controllerData, log) => (controllerData.foldl (assignMetric cgroup) acc.1, acc.2 ++ log)
  | (none, log) => (acc.1, acc.2 ++ log)

/-- Lines 35-56 of `GetFromTree`: the map `cgroupData` after the loop over the
controllers, and the messages logged. -/
def collect (fs : FileSystem) (cgroup : String) (controllers : List String) :
    Message × List String :=
  controllers.foldl (collectController fs cgroup) (GoMap.set [] cgroup [], [])

/-- Lines 59-61 of `GetFromTree`: what is sent on `ch_data`, if anything. -/
def toSend (cgroup : String) (cgroupData : Message) : Option Message :=
  if (cgroupData.getD cgroup []).len > 0 then some cgroupData else none

/-- Lines 73-77 of `GetFromTree`: the identifier of a child. -/
def childName (cgroup name : String) : String :=
  if cgroup ≠ "" then cgroup ++ "/" ++ name else name

/-- The loop of lines 70-80 of `GetFromTree`: the calls spawned (each after a
`wg.Add(1)`), in order. -/
def spawnFor (c : Call) (files : List FileInfo) : List Call :=
  files.filterMap fun file =>
    if file.IsDir then some ⟨childName c.cgroup file.Name, c.depth - 1, c.controllers⟩ else none

/-- Lines 64-81 of `GetFromTree`: the spawned calls and the messages logged. -/
def descend (fs : FileSystem) (c : Call) : List Call × List String :=
  if c.depth > 0 then
    let r := ioutil_ReadDir fs (cgroupPathOf c.cgroup)
    (spawnFor c r.1, match r.2 with | some err => [err] | none => [])
  else ([], [])

/-- What one invocation of `GetFromTree` does. -/
structure Effects where
  sent : Option Message
  spawned : List Call
  log : List String

/-- Go `GetFromTree`, one invocation. -/
def GetFromTree (fs : FileSystem) (c : Call) : Effects :=
  let cd := collect fs c.cgroup c.controllers
  let ds := descend fs c
  { sent := toSend c.cgroup cd.1, spawned := ds.1, log := cd.2 ++ ds.2 }

/-- An invocation and all the invocations it transitively spawns, spawn trees
cut after `fuel` levels. -/
def walk (fs : FileSystem) : Nat → Call → List Call
  | 0, c => [c]
  | fuel + 1, c => c :: (GetFromTree fs c).spawned.flatMap (walk fs fuel)

/-- An invocation and all the invocations it transitively spawns. -/
def invocations (fs : FileSystem) (c : Call) : List Call :=
  walk fs c.depth.toNat c

/-- The nodes `GetFromTree` is invoked on, from an initial call. -/
def visited (fs : FileSystem) (c : Call) : List String :=
  (invocations fs c).map Call.cgroup

/-! ## Package `main` -/

/-- The collected entry: `map[string](map[string](map[string](string)))`. -/
abbrev Entry := GoMap (GoMap (GoMap String))

/-- The statement `entry[timestamp][k] = v` (main.go, line 43). -/
def assignNode (timestamp : String) (entry : Entry) (kv : String × GoMap String) : Entry :=
  entry.set timestamp ((entry.getD timestamp []).set kv.1 kv.2)

/-- The body of the loop over the channel (main.go, lines 42-44). -/
def mergeMessage (timestamp : String) (entry : Entry) (cgroupData : Message) : Entry :=
  cgroupData.foldl (assignNode timestamp) entry

/-- Go `build_entry`: what is sent on `ch_result`, from the time read at line 39 and
the messages received on `ch_data` until it is closed. -/
def build_entry (timestamp : String) (received : List Message) : Entry :=
  received.foldl (mergeMessage timestamp) (GoMap.set [] timestamp [])

/-- The file system of the scenario: root `a` with one child directory `b`, and
`memory.current` the only readable file of each. -/
def scenarioFS : FileSystem where
  ReadFile := fun p =>
    if p = "/sys/fs/cgroup/a/memory.current" then .ok "100\n"
    else if p = "/sys/fs/cgroup/a/b/memory.current" then .ok "50\n"
    else .error ("open " ++ p ++ ": no such file or directory")
  entries := fun p =>
    if p = "/sys/fs/cgroup/a" then
      [⟨"b", true⟩, ⟨"memory.current", false⟩]
    else if p = "/sys/fs/cgroup/a/b" then [⟨"memory.current", false⟩]
    else []
  listErr := fun _ => none

/-- The messages sent by the invocations of a call, in spawn order. -/
def sentBy (fs : FileSystem) (c : Call) : List Message :=
  (invocations fs c).filterMap fun i => (GetFromTree fs i).sent

/-- Whether `os.ReadFile` of the path succeeds. -/
def readable (fs : FileSystem) (path : String) : Bool :=
  match fs.ReadFile path with
  | .ok _ => true
  | .error _ => false

/-- The statement `m[k] = v` for a pair of a `range` loop. -/
def setPair {V : Type} (m : GoMap V) (kv : String × V) : GoMap V := m.set kv.1 kv.2

/-- What the loop body of lines 50-55 does to the inner map `cgroupData[cgroup]`. -/
def mergeController (fs : FileSystem) (cgroup : String) (m : GoMap String)
    (controller : String) : GoMap String :=
  match (ReadCgroupController fs (cgroupPathOf cgroup) controller).1 with
  | some controllerData => controllerData.foldl setPair m
  | none => m

/-- The map `ReadCgroupController` returns for the `"memory"` controller. -/
def memoryData (fs : FileSystem) (cgroupPath : String) : GoMap String :=
  (memoryFiles.foldl (readFileInto fs cgroupPath) ([], [])).1

/-- The metrics of a node: the inner map `cgroupData[cgroup]` after the loop over
the controllers. -/
def metricsOf (fs : FileSystem) (cgroup : String) (controllers : List String) : GoMap String :=
  (collect fs cgroup controllers).1.getD cgroup []

/-- The message `GetFromTree` sends for a node: one key, the node identifier. -/
def nodeMessage (p : String × GoMap String) : Message := [(p.1, p.2)]

/-- What the loop of `build_entry` leaves in the inner map `entry[timestamp]`. -/
def nodeEntries (received : List Message) : GoMap (GoMap String) :=
  received.foldl (fun nodes cgroupData => cgroupData.foldl setPair nodes) []

/-- What `build_entry` stores under the timestamp. -/
def stored (timestamp : String) (received : List Message) : GoMap (GoMap String) :=
  (build_entry timestamp received).getD timestamp []

/-- The file system in which the listing of one directory does not fail, all else
unchanged. -/
def clearListErr (fs : FileSystem) (dirname : String) : FileSystem :=
  { fs with listErr := fun p => if p = dirname then none else fs.listErr p }

/-! ## One run: goroutines, wait groups and channels -/

/-- Go `config.Collections`: one configured collection. -/
structure Collections where
  Cgroup : String
  Depth : Int
  Controllers : List String
deriving DecidableEq, Repr

/-- The arguments `main` passes to `GetFromTree` for a collection (main.go, line 81). -/
def Collections.toCall (c : Collections) : Call := ⟨c.Cgroup, c.Depth, c.Controllers⟩

/-- Where a `GetFromTree` goroutine stands. -/
inductive WalkerPc where
  /-- Before line 35: nothing has run. -/
  | collect
  /-- At line 60, about to send `cgroupData` on `ch_data`. -/
  | send (cgroupData : Message)
  /-- At line 64, about to test the depth and list the directory. -/
  | list
  /-- At line 70, with the files still to go through. -/
  | loop (files : List FileInfo)
  /-- At line 78: `wg.Add(1)` is done, the `go` statement for `child` is not. -/
  | spawn (child : String) (files : List FileInfo)
  /-- At the end of the function, about to run the deferred `wg.Done()`. -/
  | ret
deriving DecidableEq, Repr

/-- A `GetFromTree` goroutine: its arguments and where it stands. -/
structure Walker where
  call : Call
  pc : WalkerPc
deriving DecidableEq, Repr

/-- Where the `build_entry` goroutine stands. -/
inductive BuilderPc where
  /-- The goroutine has not been started. -/
  | absent
  /-- Before line 35: nothing has run. -/
  | start
  /-- At line 41, receiving from `ch_data`. -/
  | loop (timestamp : String) (entry : Entry)
  /-- At line 46, about to send `entry` on `ch_result`. -/
  | send (entry : Entry)
  /-- At the end of the function, about to run the deferred `wg_result.Done()`. -/
  | ret
  /-- The goroutine has returned. -/
  | gone
deriving DecidableEq, Repr

/-- Where `main` stands, from line 78 on. -/
inductive MainPc where
  /-- At line 78, with the collections still to start. -/
  | launch (rest : List Collections)
  /-- At line 81: `wg_data.Add(1)` is done, the `go` statement is not. -/
  | spawn (collection : Collections) (rest : List Collections)
  /-- At line 85, `wg_result.Add(1)`. -/
  | addResult
  /-- At line 86, `go build_entry(...)`. -/
  | goBuild
  /-- At line 89, `wg_data.Wait()`. -/
  | waitData
  /-- At line 90, `close(ch_data)`. -/
  | closeData
  /-- At line 93, `wg_result.Wait()`. -/
  | waitResult
  /-- At line 94, `close(ch_result)`. -/
  | closeResult
  /-- At line 97, `<-ch_result`. -/
  | recvResult
  /-- After line 97, holding the value received from `ch_result`. -/
  | done (result : Entry)
deriving DecidableEq, Repr

/-- The state of one run. -/
structure RunState where
  main : MainPc
  walkers : List Walker
  builder : BuilderPc
  /-- The counter of `wg_data`. -/
  wg_data : Int
  /-- The counter of `wg_result`. -/
  wg_result : Int
  /-- The buffer of `ch_data` (capacity 100), oldest first. -/
  ch_data : List Message
  ch_data_closed : Bool
  /-- The buffer of `ch_result` (capacity 1). -/
  ch_result : List Entry
  ch_result_closed : Bool
  /-- What has been written to the log. -/
  log : List String
  /-- The run-time panic the program died of, if it did. -/
  panic : Option String
deriving Repr

/-- The capacity of `ch_data` (main.go, line 52). -/
def ch_data_cap : Nat := 100

/-- The capacity of `ch_result` (main.go, line 53). -/
def ch_result_cap : Nat := 1

/-- The state when `main` reaches line 78 with the configured collections. -/
def initState (collect : List Collections) : RunState :=
  { main := .launch collect, walkers := [], builder := .absent, wg_data := 0, wg_result := 0,
    ch_data := [], ch_data_closed := false, ch_result := [], ch_result_closed := false,
    log := [], panic := none }

/-- Which goroutine takes the next step; `builder` carries what the clock shows, for
the step that reads it. -/
inductive Label where
  | main
  | builder (now : String)
  | walker (i : Nat)
deriving DecidableEq, Repr

/-- One step of `main`; `none` when it is blocked or has finished. -/
def stepMain (s : RunState) : Option RunState :=
  match s.main with
  | .launch [] => some { s with main := .addResult }
  | .launch (c :: rest) => some { s with wg_data := s.wg_data + 1, main := .spawn c rest }
  | .spawn c rest =>
    some { s with walkers := s.walkers ++ [⟨c.toCall, .collect⟩], main := .launch rest }
  | .addResult => some { s with wg_result := s.wg_result + 1, main := .goBuild }
  | .goBuild => some { s with builder := .start, main := .waitData }
  | .waitData => if s.wg_data = 0 then some { s with main := .closeData } else none
  | .closeData =>
    if s.ch_data_closed then some { s with panic := some "close of closed channel" }
    else some { s with ch_data_closed := true, main := .waitResult }
  | .waitResult => if s.wg_result = 0 then some { s with main := .closeResult } else none
  | .closeResult =>
    if s.ch_result_closed then some { s with panic := some "close of closed channel" }
    else some { s with ch_result_closed := true, main := .recvResult }
  | .recvResult =>
    match s.ch_result with
    | e :: rest => some { s with ch_result := rest, main := .done e }
    | [] => if s.ch_result_closed then some { s with main := .done [] } else none
  | .done _ => none

/-- One step of the `build_entry` goroutine; `none` when it is blocked, not started or
has returned. -/
def stepBuilder (now : String) (s : RunState) : Option RunState :=
  match s.builder with
  | .absent => none
  | .start => some { s with builder := .loop now (GoMap.set [] now []) }
  | .loop timestamp entry =>
    match s.ch_data with
    | cgroupData :: rest =>
      some { s with ch_data := rest,
                    builder := .loop timestamp (mergeMessage timestamp entry cgroupData) }
    | [] => if s.ch_data_closed then some { s with builder := .send entry } else none
  | .send entry =>
    if s.ch_result_closed then some { s with panic := some "send on closed channel" }
    else if s.ch_result.length < ch_result_cap then
      some { s with ch_result := s.ch_result ++ [entry], builder := .ret }
    else none
  | .ret =>
    if s.wg_result - 1 < 0 then some { s with panic := some "sync: negative WaitGroup counter" }
    else some { s with wg_result := s.wg_result - 1, builder := .gone }
  | .gone => none

/-- One step of the `GetFromTree` goroutine number `i`; `none` when there is no such
goroutine or it is blocked. -/
def stepWalker (fs : FileSystem) (i : Nat) (s : RunState) : Option RunState :=
  match s.walkers[i]? with
  | none => none
  | some w =>
    match w.pc with
    | .collect =>
      let cd := collect fs w.call.cgroup w.call.controllers
      match toSend w.call.cgroup cd.1 with
      | some cgroupData =>
        some { s with walkers := s.walkers.set i { w with pc := .send cgroupData },
                      log := s.log ++ cd.2 }
      | none => some { s with walkers := s.walkers.set i { w with pc := .list },
                              log := s.log ++ cd.2 }
    | .send cgroupData =>
      if s.ch_data_closed then some { s with panic := some "send on closed channel" }
      else if s.ch_data.length < ch_data_cap then
        some { s with ch_data := s.ch_data ++ [cgroupData],
                      walkers := s.walkers.set i { w with pc := .list } }
      else none
    | .list =>
      if w.call.depth > 0 then
        let r := ioutil_ReadDir fs (cgroupPathOf w.call.cgroup)
        some { s with walkers := s.walkers.set i { w with pc := .loop r.1 },
                      log := s.log ++ (match r.2 with | some err => [err] | none => []) }
      else some { s with walkers := s.walkers.set i { w with pc := .ret } }
    | .loop [] => some { s with walkers := s.walkers.set i { w with pc := .ret } }
    | .loop (file :: rest) =>
      if file.IsDir then
        some { s with wg_data := s.wg_data + 1,
                      walkers := s.walkers.set i
                        { w with pc := .spawn (childName w.call.cgroup file.Name) rest } }
      else some { s with walkers := s.walkers.set i { w with pc := .loop rest } }
    | .spawn child rest =>
      some { s with walkers := s.walkers.set i { w with pc := .loop rest }
                      ++ [⟨⟨child, w.call.depth - 1, w.call.controllers⟩, .collect⟩] }
    | .ret =>
      if s.wg_data - 1 < 0 then some { s with panic := some "sync: negative WaitGroup counter" }
      else some { s with wg_data := s.wg_data - 1, walkers := s.walkers.eraseIdx i }

/-- One step of the run by the goroutine the label names; nothing steps after a
panic. -/
def step (fs : FileSystem) (l : Label) (s : RunState) : Option RunState :=
  if s.panic.isSome then none
  else
    match l with
    | .main => stepMain s
    | .builder now => stepBuilder now s
    | .walker i => stepWalker fs i s

/-- The states a run reaches from the configured collections, under any schedule. -/
inductive Reachable (fs : FileSystem) (collect : List Collections) : RunState → Prop where
  | init : Reachable fs collect (initState collect)
  | step (l : Label) (s s' : RunState) :
      Reachable fs collect s → step fs l s = some s' → Reachable fs collect s'

/-- The state after running a schedule, a list of labels, skipping the labels whose
goroutine cannot step. -/
def runSchedule (fs : FileSystem) (s : RunState) : List Label → RunState
  | [] => s
  | l :: ls =>
    match step fs l s with
    | some s' => runSchedule fs s' ls
    | none => runSchedule fs s ls

/-- Whether a `GetFromTree` goroutine stands between its `wg.Add(1)` and its `go`. -/
def WalkerPc.isSpawn : WalkerPc → Bool
  | .spawn _ _ => true
  | _ => false

/-- The invocations `main` has registered and not started: one between its
`wg_data.Add(1)` and its `go`, else none. -/
@[simp]
def MainPc.pending : MainPc → Nat
  | .spawn _ _ => 1
  | _ => 0

/-- Whether `main` has returned from `wg_data.Wait()`. -/
@[simp]
def MainPc.pastWait : MainPc → Bool
  | .closeData | .waitResult | .closeResult | .recvResult | .done _ => true
  | _ => false

/-- Whether `main` has closed `ch_data`. -/
@[simp]
def MainPc.pastCloseData : MainPc → Bool
  | .waitResult | .closeResult | .recvResult | .done _ => true
  | _ => false

/-- Whether `main` has returned from `wg_result.Wait()`. -/
@[simp]
def MainPc.pastWaitResult : MainPc → Bool
  | .closeResult | .recvResult | .done _ => true
  | _ => false

/-- Whether `main` has closed `ch_result`. -/
@[simp]
def MainPc.pastCloseResult : MainPc → Bool
  | .recvResult | .done _ => true
  | _ => false

/-- Whether `main` has not yet started the `build_entry` goroutine. -/
@[simp]
def MainPc.beforeBuild : MainPc → Bool
  | .launch _ | .spawn _ _ | .addResult | .goBuild => true
  | _ => false

/-- Whether `main` holds the received result. -/
@[simp]
def MainPc.isDone : MainPc → Bool
  | .done _ => true
  | _ => false

/-- Whether the `build_entry` goroutine runs: started and not returned. -/
@[simp]
def BuilderPc.live : BuilderPc → Bool
  | .start | .loop _ _ | .send _ | .ret => true
  | _ => false

/-- Whether the `build_entry` goroutine has left its receive loop. -/
@[simp]
def BuilderPc.pastLoop : BuilderPc → Bool
  | .send _ | .ret | .gone => true
  | _ => false

/-- Whether the `build_entry` goroutine has sent its entry. -/
@[simp]
def BuilderPc.hasSent : BuilderPc → Bool
  | .ret | .gone => true
  | _ => false

/-- The `GetFromTree` invocations that are registered with `wg_data` and have not
returned: the goroutines that run, and the ones whose `Add(1)` is done and whose `go`
statement is not. -/
@[simp]
def registered (s : RunState) : Nat :=
  s.walkers.length + s.walkers.countP (fun w => w.pc.isSpawn) + s.main.pending

/-- The `build_entry` goroutines that run: one or none. -/
@[simp]
def BuilderPc.units : BuilderPc → Nat
  | .start | .loop _ _ | .send _ | .ret => 1
  | _ => 0

/-- The `build_entry` invocations `main` has registered and not started. -/
@[simp]
def MainPc.pendingResult : MainPc → Nat
  | .goBuild => 1
  | _ => 0

/-- The units registered with `wg_result` and not done. -/
@[simp]
def registeredResult (s : RunState) : Nat :=
  s.main.pendingResult + s.builder.units

/-- The control invariant of a run. -/
structure ControlInv (s : RunState) : Prop where
  no_panic : s.panic = none
  wg_data_eq : s.wg_data = (registered s : Int)
  wg_result_eq : s.wg_result = (registeredResult s : Int)
  walkers_done : s.main.pastWait = true → s.walkers = []
  data_closed : s.ch_data_closed = s.main.pastCloseData
  result_closed : s.ch_result_closed = s.main.pastCloseResult
  builder_absent : (s.builder = .absent) ↔ s.main.beforeBuild = true
  builder_gone : s.main.pastWaitResult = true → s.builder = .gone
  builder_pastLoop : s.builder.pastLoop = true → s.ch_data_closed = true ∧ s.ch_data = []
  result_empty : s.builder.hasSent = false → s.ch_result = []
  result_len : s.ch_result.length ≤ 1

/-- The messages a run is to deliver: the ones sent by the invocations of every
configured collection. -/
def expected (fs : FileSystem) (collect : List Collections) : List Message :=
  collect.flatMap fun c => sentBy fs c.toCall

/-- The messages a `GetFromTree` goroutine and the goroutines it is still to spawn
have yet to send. -/
def pendingWalker (fs : FileSystem) (w : Walker) : List Message :=
  match w.pc with
  | .collect => sentBy fs w.call
  | .send m => m :: (GetFromTree fs w.call).spawned.flatMap (sentBy fs)
  | .list => (GetFromTree fs w.call).spawned.flatMap (sentBy fs)
  | .loop files => (spawnFor w.call files).flatMap (sentBy fs)
  | .spawn child files =>
    sentBy fs ⟨child, w.call.depth - 1, w.call.controllers⟩
      ++ (spawnFor w.call files).flatMap (sentBy fs)
  | .ret => []

/-- The messages the goroutines `main` is still to start have yet to send. -/
def pendingMain (fs : FileSystem) : MainPc → List Message
  | .launch rest => rest.flatMap fun c => sentBy fs c.toCall
  | .spawn c rest => sentBy fs c.toCall ++ rest.flatMap fun c => sentBy fs c.toCall
  | _ => []

/-- How the state of the `build_entry` goroutine relates to the messages it has
received so far. -/
def BuilderRel (s : RunState) (received : List Message) : Prop :=
  match s.builder with
  | .absent => received = []
  | .start => received = []
  | .loop timestamp entry => entry = build_entry timestamp received
  | .send entry => ∃ timestamp, entry = build_entry timestamp received
  | .ret => ∃ timestamp,
      s.ch_result = [build_entry timestamp received] ∧ s.main.isDone = false
  | .gone => ∃ timestamp,
      (s.ch_result = [build_entry timestamp received] ∧ s.main.isDone = false) ∨
      s.main = .done (build_entry timestamp received)

/-- The data invariant of a run: every message to deliver has been received, is in
the channel or is yet to be sent, and there is no other message. -/
def DataInv (fs : FileSystem) (collect : List Collections) (s : RunState) : Prop :=
  ∃ received : List Message, BuilderRel s received ∧
    ∀ m, m ∈ expected fs collect ↔
      (m ∈ received ∨ m ∈ s.ch_data ∨ m ∈ pendingMain fs s.main ∨
        m ∈ s.walkers.flatMap (pendingWalker fs))

/-- A bound on the steps an invocation of `GetFromTree` and the invocations it
transitively spawns take, with one more step for each message they send (its
reception), spawn trees cut after `fuel` levels. -/
def callCost (fs : FileSystem) : Nat → Call → Nat
  | 0, _ => 5
  | fuel + 1, c =>
    4 + (if c.depth > 0 then
          2 + ((ioutil_ReadDir fs (cgroupPathOf c.cgroup)).1.map fun f =>
                if f.IsDir then
                  2 + callCost fs fuel ⟨childName c.cgroup f.Name, c.depth - 1, c.controllers⟩
                else 1).sum
        else 1)

/-- The bound `callCost` with the depth of the call for fuel. -/
def totalCost (fs : FileSystem) (c : Call) : Nat := callCost fs c.depth.toNat c

/-- The bound for the loop over the files that are left. -/
def filesCost (fs : FileSystem) (c : Call) (files : List FileInfo) : Nat :=
  (files.map fun f =>
    if f.IsDir then 2 + totalCost fs ⟨childName c.cgroup f.Name, c.depth - 1, c.controllers⟩
    else 1).sum

/-- The bound from the `if depth > 0` of line 64 on. -/
def descentCost (fs : FileSystem) (c : Call) : Nat :=
  if c.depth > 0 then 2 + filesCost fs c (ioutil_ReadDir fs (cgroupPathOf c.cgroup)).1 else 1

/-- The bound for a `GetFromTree` goroutine where it stands. -/
def walkerCost (fs : FileSystem) (w : Walker) : Nat :=
  match w.pc with
  | .collect => 4 + descentCost fs w.call
  | .send _ => 3 + descentCost fs w.call
  | .list => 1 + descentCost fs w.call
  | .loop files => 2 + filesCost fs w.call files
  | .spawn child rest =>
    1 + totalCost fs ⟨child, w.call.depth - 1, w.call.controllers⟩
      + (2 + filesCost fs w.call rest)
  | .ret => 1

/-- The bound for `main` where it stands, the goroutines it is still to start
included. -/
def mainCost (fs : FileSystem) : MainPc → Nat
  | .launch rest => 8 + (rest.map fun c => 2 + totalCost fs c.toCall).sum
  | .spawn c rest => 9 + totalCost fs c.toCall + (rest.map fun c => 2 + totalCost fs c.toCall).sum
  | .addResult => 7
  | .goBuild => 6
  | .waitData => 5
  | .closeData => 4
  | .waitResult => 3
  | .closeResult => 2
  | .recvResult => 1
  | .done _ => 0

/-- The bound for the `build_entry` goroutine where it stands, receptions apart. -/
def builderCost : BuilderPc → Nat
  | .absent => 4
  | .start => 4
  | .loop _ _ => 3
  | .send _ => 2
  | .ret => 1
  | .gone => 0

/-- A bound on the steps a run still takes. -/
def stepsLeft (fs : FileSystem) (s : RunState) : Nat :=
  mainCost fs s.main + (s.walkers.map (walkerCost fs)).sum + builderCost s.builder
    + s.ch_data.length

/-- The file system of the scenario when the listing of the root directory `a` fails. -/
def deniedFS : FileSystem :=
  { scenarioFS with
    listErr := fun p =>
      if p = "/sys/fs/cgroup/a" then some "open /sys/fs/cgroup/a: permission denied"
      else none }

/-- The configuration of the scenario: the one collection `a`, depth 1, controller
`memory`. -/
def scenarioConfig : List Collections := [⟨"a", 1, ["memory"]⟩]

/-- A schedule of the scenario up to the point where the root goroutine has registered
its child and not started it. -/
def scenarioStart : List Label :=
  [.main, .main, .walker 0, .walker 0, .walker 0, .walker 0]

/-- A schedule of the scenario at the end of which `main` holds the result. -/
def scenarioSchedule : List Label :=
  [.main, .main, .main, .main, .main, .walker 0, .builder "2023-02-05T10:00:00Z",
   .walker 0, .walker 0, .walker 0, .walker 0, .walker 0, .walker 0, .walker 1, .walker 1,
   .builder "", .walker 0, .walker 0, .builder "", .walker 0, .walker 0, .walker 0, .walker 0,
   .main, .main, .builder "", .builder "", .builder "", .main, .main, .main]

/-! ## A file system that is a tree of directories -/

/-- Whether a string can name a directory entry: it is not empty and has no slash. -/
def validName (n : String) : Bool := !n.data.isEmpty && !n.data.contains '/'

/-- A tree of directories below `/sys/fs/cgroup`.  A directory or file is given by its
position: the names on the way to it from the top directory, the top directory being
`[]`.  `dirs` are the directories, `files` the regular files with their content, and
`unlistable` the directories whose listing fails. -/
structure DirTree where
  dirs : List (List String)
  files : List (List String × String)
  unlistable : List (List String)

/-- The names in the tree are names of directory entries. -/
def DirTree.WellFormed (T : DirTree) : Prop :=
  ∀ q ∈ T.dirs, ∀ n ∈ q, validName n = true

/-- The names of a path: the stretches between slashes that are not empty; `cur` is
the stretch read so far. -/
def componentsAux : List Char → List Char → List String
  | [], cur => if cur = [] then [] else [⟨cur⟩]
  | c :: cs, cur =>
    if c = '/' then
      if cur = [] then componentsAux cs [] else ⟨cur⟩ :: componentsAux cs []
    else componentsAux cs (cur ++ [c])

/-- The names of a path, as the operating system resolves it. -/
def components (path : String) : List String := componentsAux path.data []

/-- The position in the tree that an absolute path names, if it is below
`/sys/fs/cgroup`. -/
def positionOf (path : String) : Option (List String) :=
  match components path with
  | a :: b :: c :: rest =>
    if a = "sys" ∧ b = "fs" ∧ c = "cgroup" then some rest else none
  | _ => none

/-- The names of the child directories of the directory at a position. -/
def subdirNames (T : DirTree) (p : List String) : List String :=
  T.dirs.filterMap fun q => if q ≠ [] ∧ q.dropLast = p then q.getLast? else none

/-- The names of the regular files of the directory at a position. -/
def fileNames (T : DirTree) (p : List String) : List String :=
  T.files.filterMap fun f => if f.1 ≠ [] ∧ f.1.dropLast = p then f.1.getLast? else none

/-- The file system a tree of directories is: paths are resolved name by name, a
path that names nothing gives an error, and the listing of a directory gives its child
directories and its regular files. -/
def treeFS (T : DirTree) : FileSystem where
  ReadFile := fun path =>
    match positionOf path with
    | some p =>
      match T.files.find? (fun f => decide (f.1 = p)) with
      | some f => .ok f.2
      | none => .error ("open " ++ path ++ ": no such file or directory")
    | none => .error ("open " ++ path ++ ": no such file or directory")
  entries := fun path =>
    match positionOf path with
    | some p =>
      (subdirNames T p).map (fun n => ⟨n, true⟩) ++ (fileNames T p).map (fun n => ⟨n, false⟩)
    | none => []
  listErr := fun path =>
    match positionOf path with
    | some p =>
      if p ∈ T.dirs then
        if p ∈ T.unlistable then some ("open " ++ path ++ ": permission denied") else none
      else some ("open " ++ path ++ ": no such file or directory")
    | none => some ("open " ++ path ++ ": no such file or directory")

/-- The directories exactly `k` child-directory steps below the directory at
position `r`, by their positions. -/
def dirsAt (T : DirTree) (r : List String) : Nat → List (List String)
  | 0 => [r]
  | k + 1 => (dirsAt T r k).flatMap fun p => (subdirNames T p).map fun n => p ++ [n]

/-- The identifier of the node at a position: its names joined by slashes. -/
def nodeId : List String → String
  | [] => ""
  | [n] => n
  | n :: m :: rest => n ++ "/" ++ nodeId (m :: rest)

/-- The tree of the scenario: directory `a` with child directory `b`, each with the
file `memory.current`. -/
def scenarioTree : DirTree where
  dirs := [[], ["a"], ["a", "b"]]
  files := [(["a", "memory.current"], "100\n"), (["a", "b", "memory.current"], "50\n")]
  unlistable := []

end Cgar

/-! # Theorems -/

namespace Cgar
namespace GoMap

theorem get?_set_self {V : Type} (m : GoMap V) (k : String) (v : V) :
    (m.set k v).get? k = some v := by
  induction m with
  | nil => simp [set, get?]
  | cons hd t ih =>
    obtain ⟨k', v'⟩ := hd
    by_cases h : k' = k
    · simp [set, get?, h]
    · simp [set, get?, h, ih]

theorem get?_set_ne {V : Type} (m : GoMap V) (k k' : String) (v : V) (h : k ≠ k') :
    (m.set k v).get? k' = m.get? k' := by
  induction m with
  | nil => simp [set, get?, h]
  | cons hd t ih =>
    obtain ⟨k0, v0⟩ := hd
    by_cases h0 : k0 = k
    · subst h0; simp [set, get?, h]
    · by_cases h1 : k0 = k'
      · subst h1; simp [set, get?, h0]
      · simp [set, get?, h0, h1, ih]

theorem set_of_not_mem {V : Type} (m : GoMap V) (k : String) (v : V) (h : k ∉ m.keys) :
    m.set k v = m ++ [(k, v)] := by
  induction m with
  | nil => rfl
  | cons hd t ih =>
    obtain ⟨k0, v0⟩ := hd
    simp only [keys, List.map_cons, List.mem_cons, not_or] at h
    have h0 : ¬ k0 = k := fun e => h.1 e.symm
    simp only [set, h0, if_false, List.cons_append]
    rw [ih h.2]

theorem keys_set_of_mem {V : Type} (m : GoMap V) (k : String) (v : V) (h : k ∈ m.keys) :
    (m.set k v).keys = m.keys := by
  induction m with
  | nil => simp [keys] at h
  | cons hd t ih =>
    obtain ⟨k0, v0⟩ := hd
    by_cases h0 : k0 = k
    · simp [set, keys, h0]
    · have ht : k ∈ keys t := by
        simp only [keys, List.map_cons, List.mem_cons] at h
        rcases h with h | h
        · exact absurd h.symm h0
        · exact h
      have := ih ht
      simp only [keys] at this
      simp [set, keys, h0, this]

theorem keys_set_of_not_mem {V : Type} (m : GoMap V) (k : String) (v : V) (h : k ∉ m.keys) :
    (m.set k v).keys = m.keys ++ [k] := by
  rw [set_of_not_mem m k v h]; simp [keys]

theorem mem_keys_set {V : Type} (m : GoMap V) (k k' : String) (v : V) :
    k' ∈ (m.set k v).keys ↔ k' = k ∨ k' ∈ m.keys := by
  by_cases h : k ∈ m.keys
  · rw [keys_set_of_mem m k v h]
    constructor
    · exact Or.inr
    · rintro (rfl | h')
      · exact h
      · exact h'
  · rw [keys_set_of_not_mem m k v h]
    simp [or_comm]

theorem nodup_keys_set {V : Type} (m : GoMap V) (k : String) (v : V) (h : m.keys.Nodup) :
    (m.set k v).keys.Nodup := by
  by_cases hk : k ∈ m.keys
  · rw [keys_set_of_mem m k v hk]; exact h
  · rw [keys_set_of_not_mem m k v hk]
    exact List.Nodup.append h (List.nodup_singleton k) (by simpa using hk)

theorem get?_eq_none_iff {V : Type} (m : GoMap V) (k : String) :
    m.get? k = none ↔ k ∉ m.keys := by
  induction m with
  | nil => simp [get?, keys]
  | cons hd t ih =>
    obtain ⟨k0, v0⟩ := hd
    by_cases h0 : k0 = k
    · simp [get?, keys, h0]
    · have : ¬ k = k0 := fun e => h0 e.symm
      simp only [keys] at ih
      simp [get?, keys, h0, this, ih]

theorem get?_eq_some_iff {V : Type} (m : GoMap V) (h : m.keys.Nodup) (k : String) (v : V) :
    m.get? k = some v ↔ (k, v) ∈ m := by
  induction m with
  | nil => simp [get?]
  | cons hd t ih =>
    obtain ⟨k0, v0⟩ := hd
    simp only [keys, List.map_cons, List.nodup_cons] at h
    by_cases h0 : k0 = k
    · subst h0
      have hn : ∀ w, (k0, w) ∉ t := fun w hw => h.1 (List.mem_map.2 ⟨(k0, w), hw, rfl⟩)
      simp only [get?, if_true, Option.some.injEq, List.mem_cons, Prod.mk.injEq, true_and]
      constructor
      · intro e; exact Or.inl e.symm
      · rintro (e | e)
        · exact e.symm
        · exact absurd e (hn v)
    · have h1 : ¬ k = k0 := fun e => h0 e.symm
      simp only [get?, h0, if_false, List.mem_cons, Prod.mk.injEq, h1, false_and, false_or]
      exact ih h.2

theorem set_of_mem {V : Type} (m : GoMap V) (h : m.keys.Nodup) (k : String) (v : V)
    (hm : (k, v) ∈ m) : m.set k v = m := by
  induction m with
  | nil => simp at hm
  | cons hd t ih =>
    obtain ⟨k0, v0⟩ := hd
    simp only [keys, List.map_cons, List.nodup_cons] at h
    by_cases h0 : k0 = k
    · subst h0
      have hn : ∀ w, (k0, w) ∉ t := fun w hw => h.1 (List.mem_map.2 ⟨(k0, w), hw, rfl⟩)
      simp only [List.mem_cons, Prod.mk.injEq, true_and] at hm
      rcases hm with e | e
      · simp [set, e]
      · exact absurd e (hn v)
    · have h1 : ¬ k = k0 := fun e => h0 e.symm
      simp only [List.mem_cons, Prod.mk.injEq, h1, false_and, false_or] at hm
      simp only [set, h0, if_false]
      rw [ih h.2 hm]

end GoMap

/-! ## `strings.TrimSuffix` -/

theorem TrimSuffix_newline_append (c : String) : TrimSuffix (c ++ "\n") "\n" = c := by
  have hd : (c ++ "\n").data = c.data ++ ['\n'] := by
    simp [String.data_append]
  have hn : ("\n" : String).data = ['\n'] := rfl
  simp [TrimSuffix, HasSuffix, hd, hn]

theorem TrimSuffix_newline_of_not (content : String) (h : ∀ c : String, content ≠ c ++ "\n") :
    TrimSuffix content "\n" = content := by
  unfold TrimSuffix
  split
  · rename_i hs
    exfalso
    have hn : ("\n" : String).data = ['\n'] := rfl
    simp only [HasSuffix, hn, List.length_singleton, Bool.and_eq_true, decide_eq_true_eq] at hs
    apply h ⟨content.data.take (content.data.length - 1)⟩
    apply String.ext
    rw [String.data_append, hn]
    have := List.take_append_drop (content.data.length - 1) content.data
    rw [hs.2] at this
    exact this.symm
  · rfl

/-! ## `ReadCgroupController` -/

theorem readable_iff (fs : FileSystem) (path : String) :
    readable fs path = true ↔ ∃ content, fs.ReadFile path = .ok content := by
  unfold readable
  cases fs.ReadFile path <;> simp

theorem readFold_keys (fs : FileSystem) (p : String) (files : List String) :
    ∀ acc : GoMap String × List String, files.Nodup → (∀ f ∈ files, f ∉ acc.1.keys) →
      (files.foldl (readFileInto fs p) acc).1.keys
        = acc.1.keys ++ files.filter (fun f => readable fs (p ++ "/" ++ f)) := by
  induction files with
  | nil => intro acc _ _; simp
  | cons f t ih =>
    intro acc hnd hdis
    rw [List.nodup_cons] at hnd
    rw [List.foldl_cons]
    cases hr : fs.ReadFile (p ++ "/" ++ f) with
    | error e =>
      have hacc : (readFileInto fs p acc f).1 = acc.1 := by simp [readFileInto, hr]
      rw [ih _ hnd.2 (by rw [hacc]; exact fun g hg => hdis g (List.mem_cons_of_mem _ hg)), hacc]
      simp [readable, hr]
    | ok content =>
      have hacc : (readFileInto fs p acc f).1 = acc.1.set f (TrimSuffix content "\n") := by
        simp [readFileInto, hr]
      have hf : f ∉ acc.1.keys := hdis f (List.mem_cons_self _ _)
      rw [ih _ hnd.2 (by
        rw [hacc]
        intro g hg hmem
        rw [GoMap.mem_keys_set] at hmem
        rcases hmem with rfl | hmem
        · exact hnd.1 hg
        · exact hdis g (List.mem_cons_of_mem _ hg) hmem), hacc,
        GoMap.keys_set_of_not_mem _ _ _ hf]
      simp [readable, hr]

theorem readFold_get? (fs : FileSystem) (p : String) (files : List String) :
    ∀ acc : GoMap String × List String, files.Nodup → ∀ f ∈ files, ∀ content,
      fs.ReadFile (p ++ "/" ++ f) = .ok content →
      (files.foldl (readFileInto fs p) acc).1.get? f = some (TrimSuffix content "\n") := by
  induction files with
  | nil => intro acc _ f hf; simp at hf
  | cons g t ih =>
    intro acc hnd f hf content hr
    rw [List.nodup_cons] at hnd
    rw [List.foldl_cons]
    by_cases hft : f ∈ t
    · exact ih _ hnd.2 f hft content hr
    · have hfg : f = g := by
        rcases List.mem_cons.1 hf with h | h
        · exact h
        · exact absurd h hft
      subst hfg
      have hstable : ∀ (l : List String) (a : GoMap String × List String), f ∉ l →
          (l.foldl (readFileInto fs p) a).1.get? f = a.1.get? f := by
        intro l
        induction l with
        | nil => intro a _; rfl
        | cons x l ihl =>
          intro a hx
          rw [List.foldl_cons, ihl _ (fun h => hx (List.mem_cons_of_mem _ h))]
          have hxf : x ≠ f := fun e => hx (e ▸ List.mem_cons_self _ _)
          unfold readFileInto
          cases fs.ReadFile (p ++ "/" ++ x) with
          | error e => rfl
          | ok c => exact GoMap.get?_set_ne _ _ _ _ hxf
      rw [hstable t _ hft]
      simp [readFileInto, hr, GoMap.get?_set_self]

theorem memoryFiles_nodup : memoryFiles.Nodup := by decide

theorem ReadCgroupController_memory (fs : FileSystem) (p : String) :
    (ReadCgroupController fs p "memory").1 = some (memoryData fs p) := by
  simp [ReadCgroupController, memoryData]

theorem ReadCgroupController_other (fs : FileSystem) (p controller : String)
    (h : controller ≠ "memory") : (ReadCgroupController fs p controller).1 = none := by
  simp [ReadCgroupController, h]

theorem memoryData_keys (fs : FileSystem) (p : String) :
    (memoryData fs p).keys = memoryFiles.filter (fun f => readable fs (p ++ "/" ++ f)) := by
  have := readFold_keys fs p memoryFiles ([], []) memoryFiles_nodup (by simp [GoMap.keys])
  simpa [memoryData, GoMap.keys] using this

theorem memoryData_nodup (fs : FileSystem) (p : String) : (memoryData fs p).keys.Nodup := by
  rw [memoryData_keys]
  exact memoryFiles_nodup.sublist (List.filter_sublist _)

/-! ## The loop over the controllers -/

theorem setPair_len_pos {V : Type} (m : GoMap V) (kv : String × V) : 0 < (setPair m kv).len := by
  obtain ⟨k, v⟩ := kv
  cases m with
  | nil => simp [setPair, GoMap.set, GoMap.len]
  | cons hd t =>
    obtain ⟨k0, v0⟩ := hd
    by_cases h : k0 = k <;> simp [setPair, GoMap.set, GoMap.len, h]

theorem foldl_setPair_len_pos {V : Type} (d : GoMap V) :
    ∀ m : GoMap V, 0 < (d.foldl setPair m).len ↔ 0 < m.len ∨ 0 < d.len := by
  induction d with
  | nil => intro m; simp [GoMap.len]
  | cons kv t ih =>
    intro m
    rw [List.foldl_cons, ih]
    have := setPair_len_pos m kv
    simp [GoMap.len] at this ⊢
    omega

theorem foldl_setPair_append {V : Type} (d : GoMap V) :
    ∀ acc : GoMap V, (GoMap.keys (acc ++ d)).Nodup → d.foldl setPair acc = acc ++ d := by
  induction d with
  | nil => intro acc _; simp
  | cons kv t ih =>
    intro acc h
    have hk : kv.1 ∉ GoMap.keys acc := by
      simp only [GoMap.keys, List.map_append, List.map_cons] at h
      have := (List.nodup_append.1 h).2.2
      intro hmem
      exact this hmem (List.mem_cons_self _ _)
    rw [List.foldl_cons]
    have hs : setPair acc kv = acc ++ [kv] := GoMap.set_of_not_mem acc kv.1 kv.2 hk
    rw [hs, ih (acc ++ [kv]) (by simpa using h)]
    simp

theorem foldl_setPair_self {V : Type} (m : GoMap V) (hm : m.keys.Nodup) (l : List (String × V)) :
    (∀ kv ∈ l, kv ∈ m) → l.foldl setPair m = m := by
  induction l with
  | nil => intro _; rfl
  | cons kv t ih =>
    intro h
    rw [List.foldl_cons]
    have : setPair m kv = m := GoMap.set_of_mem m hm kv.1 kv.2 (h kv (List.mem_cons_self _ _))
    rw [this]
    exact ih (fun x hx => h x (List.mem_cons_of_mem _ hx))

theorem assignMetric_single (cgroup : String) (m : GoMap String) (kv : String × String) :
    assignMetric cgroup [(cgroup, m)] kv = [(cgroup, setPair m kv)] := by
  simp [assignMetric, GoMap.set, GoMap.getD, GoMap.get?, setPair]

theorem foldl_assignMetric_single (cgroup : String) (d : GoMap String) :
    ∀ m : GoMap String,
      d.foldl (assignMetric cgroup) [(cgroup, m)] = [(cgroup, d.foldl setPair m)] := by
  induction d with
  | nil => intro m; rfl
  | cons kv t ih => intro m; rw [List.foldl_cons, assignMetric_single, ih, List.foldl_cons]

theorem collectController_single (fs : FileSystem) (cgroup : String) (m : GoMap String)
    (lg : List String) (controller : String) :
    (collectController fs cgroup ([(cgroup, m)], lg) controller).1
      = [(cgroup, mergeController fs cgroup m controller)] := by
  unfold collectController mergeController
  rcases h : ReadCgroupController fs (cgroupPathOf cgroup) controller with ⟨_ | d, lg'⟩
  · simp
  · simp [foldl_assignMetric_single]

theorem foldl_collectController_single (fs : FileSystem) (cgroup : String)
    (controllers : List String) :
    ∀ (m : GoMap String) (lg : List String),
      (controllers.foldl (collectController fs cgroup) ([(cgroup, m)], lg)).1
        = [(cgroup, controllers.foldl (mergeController fs cgroup) m)] := by
  induction controllers with
  | nil => intro m lg; rfl
  | cons c t ih =>
    intro m lg
    rw [List.foldl_cons, List.foldl_cons]
    have h := collectController_single fs cgroup m lg c
    have hp : collectController fs cgroup ([(cgroup, m)], lg) c
        = ([(cgroup, mergeController fs cgroup m c)],
            (collectController fs cgroup ([(cgroup, m)], lg) c).2) := by
      rw [← h]
    rw [hp, ih]

theorem collect_fst (fs : FileSystem) (cgroup : String) (controllers : List String) :
    (collect fs cgroup controllers).1
      = [(cgroup, controllers.foldl (mergeController fs cgroup) [])] := by
  unfold collect
  exact foldl_collectController_single fs cgroup controllers [] []

theorem metricsOf_eq (fs : FileSystem) (cgroup : String) (controllers : List String) :
    metricsOf fs cgroup controllers = controllers.foldl (mergeController fs cgroup) [] := by
  simp [metricsOf, collect_fst, GoMap.getD, GoMap.get?]

theorem collect_eq_single (fs : FileSystem) (cgroup : String) (controllers : List String) :
    (collect fs cgroup controllers).1 = [(cgroup, metricsOf fs cgroup controllers)] := by
  rw [metricsOf_eq, collect_fst]

theorem GetFromTree_sent (fs : FileSystem) (c : Call) :
    (GetFromTree fs c).sent
      = if 0 < (metricsOf fs c.cgroup c.controllers).len
        then some [(c.cgroup, metricsOf fs c.cgroup c.controllers)] else none := by
  simp only [GetFromTree, toSend, collect_eq_single]
  simp [GoMap.getD, GoMap.get?]

theorem foldl_mergeController_len_pos (fs : FileSystem) (cgroup : String)
    (controllers : List String) :
    ∀ m : GoMap String, 0 < (controllers.foldl (mergeController fs cgroup) m).len ↔
      0 < m.len ∨ ∃ controller ∈ controllers, ∃ d,
        (ReadCgroupController fs (cgroupPathOf cgroup) controller).1 = some d ∧ 0 < d.len := by
  induction controllers with
  | nil => intro m; simp
  | cons c t ih =>
    intro m
    rw [List.foldl_cons, ih]
    have hc : 0 < (mergeController fs cgroup m c).len ↔ 0 < m.len ∨
        ∃ d, (ReadCgroupController fs (cgroupPathOf cgroup) c).1 = some d ∧ 0 < d.len := by
      unfold mergeController
      cases h : (ReadCgroupController fs (cgroupPathOf cgroup) c).1 with
      | none => simp
      | some d => simp [foldl_setPair_len_pos]
    rw [hc]
    simp only [List.mem_cons, exists_eq_or_imp]
    rw [or_assoc]

/-! ## `build_entry` -/

theorem assignNode_single (ts : String) (nodes : GoMap (GoMap String))
    (kv : String × GoMap String) :
    assignNode ts [(ts, nodes)] kv = [(ts, setPair nodes kv)] := by
  simp [assignNode, GoMap.set, GoMap.getD, GoMap.get?, setPair]

theorem mergeMessage_single (ts : String) (msg : Message) :
    ∀ nodes : GoMap (GoMap String),
      mergeMessage ts [(ts, nodes)] msg = [(ts, msg.foldl setPair nodes)] := by
  unfold mergeMessage
  induction msg with
  | nil => intro nodes; rfl
  | cons kv t ih => intro nodes; rw [List.foldl_cons, assignNode_single, ih, List.foldl_cons]

theorem foldl_mergeMessage_single (ts : String) (received : List Message) :
    ∀ nodes : GoMap (GoMap String),
      received.foldl (mergeMessage ts) [(ts, nodes)]
        = [(ts, received.foldl (fun nodes cgroupData => cgroupData.foldl setPair nodes) nodes)] := by
  induction received with
  | nil => intro nodes; rfl
  | cons msg t ih => intro nodes; rw [List.foldl_cons, mergeMessage_single, ih, List.foldl_cons]

theorem build_entry_eq (ts : String) (received : List Message) :
    build_entry ts received = [(ts, nodeEntries received)] := by
  unfold build_entry nodeEntries
  exact foldl_mergeMessage_single ts received []

theorem stored_eq (ts : String) (received : List Message) :
    stored ts received = nodeEntries received := by
  simp [stored, build_entry_eq, GoMap.getD, GoMap.get?]

theorem mem_keys_foldl_setPair {V : Type} (d : GoMap V) :
    ∀ (m : GoMap V) (k : String), k ∈ (d.foldl setPair m).keys ↔ k ∈ m.keys ∨ k ∈ d.keys := by
  induction d with
  | nil => intro m k; simp [GoMap.keys]
  | cons kv t ih =>
    intro m k
    rw [List.foldl_cons, ih, setPair, GoMap.mem_keys_set]
    simp only [GoMap.keys, List.map_cons, List.mem_cons]
    tauto

theorem mem_keys_nodeEntries_aux (received : List Message) :
    ∀ (nodes : GoMap (GoMap String)) (k : String),
      k ∈ (received.foldl (fun nodes cgroupData => cgroupData.foldl setPair nodes) nodes).keys ↔
        k ∈ nodes.keys ∨ ∃ msg ∈ received, k ∈ GoMap.keys msg := by
  induction received with
  | nil => intro nodes k; simp
  | cons msg t ih =>
    intro nodes k
    rw [List.foldl_cons, ih, mem_keys_foldl_setPair]
    simp only [List.mem_cons, exists_eq_or_imp]
    rw [or_assoc]

theorem mem_keys_nodeEntries (received : List Message) (k : String) :
    k ∈ (nodeEntries received).keys ↔ ∃ msg ∈ received, k ∈ GoMap.keys msg := by
  unfold nodeEntries
  rw [mem_keys_nodeEntries_aux]
  simp [GoMap.keys]

theorem nodeEntries_nodeMessages_aux (l : List (String × GoMap String)) :
    ∀ acc : GoMap (GoMap String), (GoMap.keys (acc ++ l)).Nodup →
      (l.map nodeMessage).foldl (fun nodes cgroupData => cgroupData.foldl setPair nodes) acc
        = acc ++ l := by
  induction l with
  | nil => intro acc _; simp
  | cons p t ih =>
    intro acc h
    have hk : p.1 ∉ GoMap.keys acc := by
      simp only [GoMap.keys, List.map_append, List.map_cons] at h
      have := (List.nodup_append.1 h).2.2
      intro hmem
      exact this hmem (List.mem_cons_self _ _)
    have hs : setPair acc (p.1, p.2) = acc ++ [p] := GoMap.set_of_not_mem acc p.1 p.2 hk
    simp only [List.map_cons, List.foldl_cons, nodeMessage, List.foldl_nil]
    rw [hs, ih (acc ++ [p]) (by simpa using h)]
    simp

theorem nodeEntries_nodeMessages (l : List (String × GoMap String))
    (h : (l.map Prod.fst).Nodup) : nodeEntries (l.map nodeMessage) = l := by
  unfold nodeEntries
  rw [nodeEntries_nodeMessages_aux l [] (by simpa [GoMap.keys] using h)]
  simp

theorem get?_foldl_setPair {V : Type} (k : String) (v : V) (d : GoMap V) :
    ∀ m : GoMap V, (∀ kv ∈ d, kv.1 = k → kv.2 = v) →
      (d.foldl setPair m).get? k = if k ∈ d.keys then some v else m.get? k := by
  induction d with
  | nil => intro m _; simp [GoMap.keys]
  | cons kv t ih =>
    intro m h
    rw [List.foldl_cons, ih _ (fun x hx => h x (List.mem_cons_of_mem _ hx))]
    by_cases hk : kv.1 = k
    · have hv : kv.2 = v := h kv (List.mem_cons_self _ _) hk
      have hm : k ∈ GoMap.keys (kv :: t) := by simp [GoMap.keys, hk]
      rw [if_pos hm]
      split
      · rfl
      · rw [setPair, hk, hv, GoMap.get?_set_self]
    · have hiff : k ∈ GoMap.keys (kv :: t) ↔ k ∈ GoMap.keys t := by
        simp only [GoMap.keys, List.map_cons, List.mem_cons]
        constructor
        · rintro (e | e)
          · exact absurd e.symm hk
          · exact e
        · exact Or.inr
      rw [setPair, GoMap.get?_set_ne _ _ _ _ hk]
      simp only [hiff]

theorem get?_nodeEntries_aux (k : String) (v : GoMap String) (received : List Message) :
    ∀ nodes : GoMap (GoMap String),
      (∀ msg ∈ received, ∀ kv ∈ msg, kv.1 = k → kv.2 = v) →
      (received.foldl (fun nodes cgroupData => cgroupData.foldl setPair nodes) nodes).get? k
        = if ∃ msg ∈ received, k ∈ GoMap.keys msg then some v else nodes.get? k := by
  induction received with
  | nil => intro nodes _; simp
  | cons msg t ih =>
    intro nodes h
    rw [List.foldl_cons, ih _ (fun x hx => h x (List.mem_cons_of_mem _ hx)),
      get?_foldl_setPair k v msg nodes (h msg (List.mem_cons_self _ _))]
    by_cases h1 : ∃ m ∈ t, k ∈ GoMap.keys m
    · have h2 : ∃ m ∈ msg :: t, k ∈ GoMap.keys m := by
        obtain ⟨m, hm, hk⟩ := h1
        exact ⟨m, List.mem_cons_of_mem _ hm, hk⟩
      rw [if_pos h1, if_pos h2]
    · rw [if_neg h1]
      by_cases h3 : k ∈ GoMap.keys msg
      · have h2 : ∃ m ∈ msg :: t, k ∈ GoMap.keys m := ⟨msg, List.mem_cons_self _ _, h3⟩
        rw [if_pos h3, if_pos h2]
      · have h2 : ¬ ∃ m ∈ msg :: t, k ∈ GoMap.keys m := by
          rintro ⟨m, hm, hk⟩
          rcases List.mem_cons.1 hm with e | e
          · exact h3 (e ▸ hk)
          · exact h1 ⟨m, e, hk⟩
        rw [if_neg h3, if_neg h2]

theorem get?_nodeEntries (k : String) (v : GoMap String) (received : List Message)
    (h : ∀ msg ∈ received, ∀ kv ∈ msg, kv.1 = k → kv.2 = v) :
    (nodeEntries received).get? k
      = if ∃ msg ∈ received, k ∈ GoMap.keys msg then some v else none := by
  unfold nodeEntries
  rw [get?_nodeEntries_aux k v received [] h]
  rfl

theorem nodup_keys_foldl_setPair {V : Type} (d : GoMap V) :
    ∀ m : GoMap V, m.keys.Nodup → (d.foldl setPair m).keys.Nodup := by
  induction d with
  | nil => intro m h; exact h
  | cons kv t ih =>
    intro m h
    rw [List.foldl_cons]
    exact ih _ (GoMap.nodup_keys_set m kv.1 kv.2 h)

theorem nodup_keys_nodeEntries (received : List Message) :
    (nodeEntries received).keys.Nodup := by
  unfold nodeEntries
  suffices h : ∀ nodes : GoMap (GoMap String), nodes.keys.Nodup →
      (received.foldl (fun nodes cgroupData => cgroupData.foldl setPair nodes) nodes).keys.Nodup by
    exact h [] (by simp [GoMap.keys])
  induction received with
  | nil => intro nodes h; exact h
  | cons msg t ih =>
    intro nodes h
    rw [List.foldl_cons]
    exact ih _ (nodup_keys_foldl_setPair msg nodes h)

/-! ## The metrics of a node -/

theorem mergeController_memory_nil (fs : FileSystem) (cgroup : String) :
    mergeController fs cgroup [] "memory" = memoryData fs (cgroupPathOf cgroup) := by
  unfold mergeController
  rw [ReadCgroupController_memory]
  have := foldl_setPair_append (memoryData fs (cgroupPathOf cgroup)) []
    (by simpa using memoryData_nodup fs (cgroupPathOf cgroup))
  simpa using this

theorem mergeController_memory_self (fs : FileSystem) (cgroup : String) :
    mergeController fs cgroup (memoryData fs (cgroupPathOf cgroup)) "memory"
      = memoryData fs (cgroupPathOf cgroup) := by
  unfold mergeController
  rw [ReadCgroupController_memory]
  exact foldl_setPair_self _ (memoryData_nodup fs _) _ (fun _ h => h)

theorem mergeController_other (fs : FileSystem) (cgroup : String) (m : GoMap String)
    (controller : String) (h : controller ≠ "memory") :
    mergeController fs cgroup m controller = m := by
  unfold mergeController
  rw [ReadCgroupController_other fs _ controller h]

theorem foldl_mergeController (fs : FileSystem) (cgroup : String) (controllers : List String) :
    ∀ m : GoMap String, (m = [] ∨ m = memoryData fs (cgroupPathOf cgroup)) →
      controllers.foldl (mergeController fs cgroup) m
        = if "memory" ∈ controllers then memoryData fs (cgroupPathOf cgroup) else m := by
  induction controllers with
  | nil => intro m _; simp
  | cons c t ih =>
    intro m hm
    rw [List.foldl_cons]
    by_cases hc : c = "memory"
    · subst hc
      have hstep : mergeController fs cgroup m "memory" = memoryData fs (cgroupPathOf cgroup) := by
        rcases hm with rfl | rfl
        · exact mergeController_memory_nil fs cgroup
        · exact mergeController_memory_self fs cgroup
      rw [hstep, ih _ (Or.inr rfl)]
      simp
    · rw [mergeController_other fs cgroup m c hc, ih m hm]
      have : ("memory" ∈ c :: t) ↔ ("memory" ∈ t) := by
        simp only [List.mem_cons]
        constructor
        · rintro (e | e)
          · exact absurd e.symm hc
          · exact e
        · exact Or.inr
      simp only [this]

theorem metricsOf_eq_memoryData (fs : FileSystem) (cgroup : String) (controllers : List String) :
    metricsOf fs cgroup controllers
      = if "memory" ∈ controllers then memoryData fs (cgroupPathOf cgroup) else [] := by
  rw [metricsOf_eq, foldl_mergeController fs cgroup controllers [] (Or.inl rfl)]

theorem metricsOf_filter (fs : FileSystem) (cgroup : String) (controllers : List String) :
    metricsOf fs cgroup (controllers.filter fun n => decide (n = "memory"))
      = metricsOf fs cgroup controllers := by
  rw [metricsOf_eq_memoryData, metricsOf_eq_memoryData]
  simp [List.mem_filter]

theorem metricsOf_insert_other (fs : FileSystem) (cgroup controller : String)
    (h : controller ≠ "memory") (before after : List String) :
    metricsOf fs cgroup (before ++ controller :: after) = metricsOf fs cgroup (before ++ after) := by
  rw [metricsOf_eq_memoryData, metricsOf_eq_memoryData]
  have : ("memory" ∈ before ++ controller :: after) ↔ ("memory" ∈ before ++ after) := by
    simp only [List.mem_append, List.mem_cons]
    constructor
    · rintro (e | e | e)
      · exact Or.inl e
      · exact absurd e.symm h
      · exact Or.inr e
    · rintro (e | e)
      · exact Or.inl e
      · exact Or.inr (Or.inr e)
  simp only [this]

theorem len_pos_iff_exists_key {V : Type} (m : GoMap V) : 0 < m.len ↔ ∃ k, k ∈ m.keys := by
  cases m with
  | nil => simp [GoMap.len, GoMap.keys]
  | cons hd t => simp [GoMap.len, GoMap.keys]

/-! ## The invocations of `GetFromTree` -/

theorem GetFromTree_spawned (fs : FileSystem) (c : Call) :
    (GetFromTree fs c).spawned = (descend fs c).1 := rfl

theorem descend_of_nonpos (fs : FileSystem) (c : Call) (h : c.depth ≤ 0) :
    (descend fs c).1 = [] := by
  have : ¬ c.depth > 0 := by omega
  simp [descend, this]

theorem descend_of_listErr (fs : FileSystem) (c : Call) (err : String)
    (h : fs.listErr (cgroupPathOf c.cgroup) = some err) : (descend fs c).1 = [] := by
  unfold descend
  split
  · simp [ioutil_ReadDir, h, spawnFor]
  · rfl

theorem spawned_depth (fs : FileSystem) (c ch : Call) (h : ch ∈ (GetFromTree fs c).spawned) :
    0 < c.depth ∧ ch.depth = c.depth - 1 ∧ ch.controllers = c.controllers := by
  rw [GetFromTree_spawned] at h
  unfold descend at h
  split at h
  · rename_i hpos
    simp only [spawnFor, List.mem_filterMap] at h
    obtain ⟨e, _, he⟩ := h
    split at he
    · have := Option.some.inj he
      subst this
      exact ⟨hpos, rfl, rfl⟩
    · exact absurd he (by simp)
  · simp at h

theorem self_mem_walk (fs : FileSystem) (fuel : Nat) (c : Call) : c ∈ walk fs fuel c := by
  cases fuel <;> simp [walk]

theorem walk_fuel_stable (fs : FileSystem) :
    ∀ (fuel : Nat) (c : Call), c.depth.toNat ≤ fuel → walk fs fuel c = walk fs c.depth.toNat c := by
  intro fuel
  induction fuel with
  | zero =>
    intro c h
    have : c.depth.toNat = 0 := by omega
    rw [this]
  | succ n ih =>
    intro c h
    by_cases hpos : 0 < c.depth
    · obtain ⟨m, hm⟩ : ∃ m, c.depth.toNat = m + 1 := ⟨c.depth.toNat - 1, by omega⟩
      rw [hm]
      simp only [walk]
      congr 1
      apply List.flatMap_congr
      intro ch hch
      have hd := (spawned_depth fs c ch hch).2.1
      have e : ch.depth.toNat = m := by omega
      rw [ih ch (by omega), e]
    · have h0 : c.depth.toNat = 0 := by omega
      rw [h0]
      simp only [walk]
      rw [GetFromTree_spawned, descend_of_nonpos fs c (by omega)]
      rfl

theorem mem_walk_succ_of_spawned (fs : FileSystem) :
    ∀ (fuel : Nat) (c i : Call), i ∈ walk fs fuel c →
      ∀ ch ∈ (GetFromTree fs i).spawned, ch ∈ walk fs (fuel + 1) c := by
  intro fuel
  induction fuel with
  | zero =>
    intro c i hi ch hch
    simp only [walk, List.mem_singleton] at hi
    subst hi
    rw [walk, List.mem_cons, List.mem_flatMap]
    exact Or.inr ⟨ch, hch, self_mem_walk fs 0 ch⟩
  | succ n ih =>
    intro c i hi ch hch
    rw [walk, List.mem_cons, List.mem_flatMap] at hi
    rw [walk, List.mem_cons, List.mem_flatMap]
    rcases hi with rfl | ⟨c', hc', hi⟩
    · exact Or.inr ⟨ch, hch, self_mem_walk fs _ ch⟩
    · exact Or.inr ⟨c', hc', ih c' i hi ch hch⟩

theorem invocations_closed (fs : FileSystem) (c i : Call) (hi : i ∈ invocations fs c) :
    ∀ ch ∈ (GetFromTree fs i).spawned, ch ∈ invocations fs c := by
  intro ch hch
  have := mem_walk_succ_of_spawned fs _ c i hi ch hch
  rw [walk_fuel_stable fs _ c (Nat.le_succ _)] at this
  exact this

theorem cgroupPathOf_injective (a b : String) (h : cgroupPathOf a = cgroupPathOf b) : a = b := by
  unfold cgroupPathOf at h
  have := congrArg String.data h
  rw [String.data_append, String.data_append] at this
  exact String.ext (List.append_cancel_left this)

set_option linter.unusedTactic false
set_option linter.unreachableTactic false

/-! ## The control invariant of a run -/

theorem getElem?_split {α : Type} (l : List α) (i : Nat) (w : α) (h : l[i]? = some w) :
    ∃ l₁ l₂, l = l₁ ++ w :: l₂ ∧ (∀ w', l.set i w' = l₁ ++ w' :: l₂) ∧
      l.eraseIdx i = l₁ ++ l₂ := by
  induction l generalizing i with
  | nil => simp at h
  | cons a t ih =>
    cases i with
    | zero =>
      simp only [List.getElem?_cons_zero, Option.some.injEq] at h
      subst h
      exact ⟨[], t, rfl, fun _ => rfl, rfl⟩
    | succ i =>
      simp only [List.getElem?_cons_succ] at h
      obtain ⟨l₁, l₂, e, hs, he⟩ := ih i h
      refine ⟨a :: l₁, l₂, by rw [e]; rfl, ?_, ?_⟩
      · intro w'
        rw [List.set_cons_succ, hs w']
        rfl
      · rw [List.eraseIdx_cons_succ, he]
        rfl

theorem controlInv_init (collect : List Collections) : ControlInv (initState collect) := by
  constructor <;> simp [initState]

@[simp]
theorem isSpawn_collect : WalkerPc.isSpawn .collect = false := rfl
@[simp]
theorem isSpawn_send (m : Message) : WalkerPc.isSpawn (.send m) = false := rfl
@[simp]
theorem isSpawn_list : WalkerPc.isSpawn .list = false := rfl
@[simp]
theorem isSpawn_loop (fl : List FileInfo) : WalkerPc.isSpawn (.loop fl) = false := rfl
@[simp]
theorem isSpawn_spawn (c : String) (fl : List FileInfo) :
    WalkerPc.isSpawn (.spawn c fl) = true := rfl
@[simp]
theorem isSpawn_ret : WalkerPc.isSpawn .ret = false := rfl

theorem pastWaitResult_of_pastCloseResult (m : MainPc) (h : m.pastCloseResult = true) :
    m.pastWaitResult = true := by
  cases m <;> first | rfl | (simp at h)

theorem pastCloseData_of_pastWaitResult (m : MainPc) (h : m.pastWaitResult = true) :
    m.pastCloseData = true := by
  cases m <;> first | rfl | (simp at h)

theorem pastWait_of_pastCloseData (m : MainPc) (h : m.pastCloseData = true) :
    m.pastWait = true := by
  cases m <;> first | rfl | (simp at h)

theorem beforeBuild_false_of_pastWait (m : MainPc) (h : m.pastWait = true) :
    m.beforeBuild = false := by
  cases m <;> first | rfl | (simp at h)

set_option maxHeartbeats 1000000 in
theorem controlInv_stepMain (s s' : RunState) (hinv : ControlInv s)
    (h : stepMain s = some s') : ControlInv s' := by
  obtain ⟨h1, h2, h3, h4, h5, h6, h7, h8, h9, h10, h11⟩ := hinv
  obtain ⟨main, walkers, builder, wg_data, wg_result, ch_data, ch_data_closed, ch_result,
    ch_result_closed, log, panic⟩ := s
  cases main <;>
    dsimp only [registered, registeredResult, MainPc.pending, MainPc.pastWait,
      MainPc.pendingResult,
      MainPc.pastCloseData, MainPc.pastCloseResult, MainPc.beforeBuild, MainPc.pastWaitResult]
      at h1 h2 h3 h4 h5 h6 h7 h8 h9 h10 h11 <;>
    simp only [stepMain] at h
  case launch rest =>
    cases rest <;> simp only [Option.some.injEq] at h <;> subst h <;> constructor <;>
      dsimp only [registered, registeredResult, MainPc.pending, MainPc.pastWait,
        MainPc.pendingResult, MainPc.pastCloseData, MainPc.pastCloseResult, MainPc.beforeBuild,
        MainPc.pastWaitResult] <;>
      first | assumption | omega | simp
  case spawn c rest =>
    simp only [Option.some.injEq] at h
    subst h
    constructor <;>
      dsimp only [registered, registeredResult, MainPc.pending, MainPc.pastWait,
        MainPc.pendingResult, MainPc.pastCloseData, MainPc.pastCloseResult, MainPc.beforeBuild,
        MainPc.pastWaitResult] <;>
      first | assumption | omega | (simp; done) | (simp; omega)
  case addResult =>
    simp only [Option.some.injEq] at h
    subst h
    constructor <;>
      dsimp only [registered, registeredResult, MainPc.pending, MainPc.pastWait,
        MainPc.pendingResult, MainPc.pastCloseData, MainPc.pastCloseResult, MainPc.beforeBuild,
        MainPc.pastWaitResult] <;>
      first | assumption | omega | (simp; done) | (simp; omega)
  case goBuild =>
    simp only [Option.some.injEq] at h
    subst h
    have hb : builder = .absent := h7.2 rfl
    subst hb
    constructor <;>
      dsimp only [registered, registeredResult, MainPc.pending, MainPc.pastWait,
        MainPc.pendingResult, MainPc.pastCloseData, MainPc.pastCloseResult, MainPc.beforeBuild,
        MainPc.pastWaitResult, BuilderPc.units] at * <;>
      first | assumption | omega | (simp; done) | (simp; omega) | simp_all
  case waitData =>
    split at h
    · rename_i h0
      simp only [Option.some.injEq] at h
      subst h
      have hw : walkers = [] := by
        apply List.eq_nil_of_length_eq_zero
        omega
      subst hw
      constructor <;>
        dsimp only [registered, registeredResult, MainPc.pending, MainPc.pastWait,
          MainPc.pendingResult, MainPc.pastCloseData, MainPc.pastCloseResult, MainPc.beforeBuild,
          MainPc.pastWaitResult, BuilderPc.units] at * <;>
        first | assumption | omega | (simp; done) | (simp; omega) | simp_all
    · exact absurd h (by simp)
  case closeData =>
    split at h
    · rename_i hc
      rw [h5] at hc
      exact absurd hc (by simp)
    · simp only [Option.some.injEq] at h
      subst h
      have hw : walkers = [] := h4 rfl
      subst hw
      have hd : ch_data_closed = true → ch_data = [] := fun e => absurd (h5 ▸ e) (by simp)
      constructor <;>
        dsimp only [registered, registeredResult, MainPc.pending, MainPc.pastWait,
          MainPc.pendingResult, MainPc.pastCloseData, MainPc.pastCloseResult, MainPc.beforeBuild,
          MainPc.pastWaitResult, BuilderPc.units] at * <;>
        first | assumption | omega | (simp; done) | (simp; omega) | simp_all
  case waitResult =>
    split at h
    · rename_i h0
      simp only [Option.some.injEq] at h
      subst h
      have hb : builder = .gone := by
        cases builder <;> simp at h3 h7 ⊢ <;> omega
      subst hb
      constructor <;>
        dsimp only [registered, registeredResult, MainPc.pending, MainPc.pastWait,
          MainPc.pendingResult, MainPc.pastCloseData, MainPc.pastCloseResult, MainPc.beforeBuild,
          MainPc.pastWaitResult, BuilderPc.units] at * <;>
        first | assumption | omega | (simp; done) | (simp; omega) | simp_all
    · exact absurd h (by simp)
  case closeResult =>
    split at h
    · rename_i hc
      rw [h6] at hc
      exact absurd hc (by simp)
    · simp only [Option.some.injEq] at h
      subst h
      constructor <;>
        dsimp only [registered, registeredResult, MainPc.pending, MainPc.pastWait,
          MainPc.pendingResult, MainPc.pastCloseData, MainPc.pastCloseResult, MainPc.beforeBuild,
          MainPc.pastWaitResult, BuilderPc.units] at * <;>
        first | assumption | omega | (simp; done) | (simp; omega) | simp_all
  case recvResult =>
    split at h
    · simp only [Option.some.injEq] at h
      subst h
      constructor <;>
        dsimp only [registered, registeredResult, MainPc.pending, MainPc.pastWait,
          MainPc.pendingResult, MainPc.pastCloseData, MainPc.pastCloseResult, MainPc.beforeBuild,
          MainPc.pastWaitResult, BuilderPc.units] at * <;>
        first | assumption | omega | (simp; done) | (simp at h11 ⊢; omega) | simp_all
    · split at h
      · simp only [Option.some.injEq] at h
        subst h
        constructor <;>
          dsimp only [registered, registeredResult, MainPc.pending, MainPc.pastWait,
            MainPc.pendingResult, MainPc.pastCloseData, MainPc.pastCloseResult,
            MainPc.beforeBuild, MainPc.pastWaitResult, BuilderPc.units] at * <;>
          first | assumption | omega | (simp; done) | (simp; omega) | simp_all
      · rename_i hc
        exact absurd h6 hc
  case done r => exact absurd h (by simp)

set_option maxHeartbeats 1000000 in
theorem controlInv_stepBuilder (now : String) (s s' : RunState) (hinv : ControlInv s)
    (h : stepBuilder now s = some s') : ControlInv s' := by
  obtain ⟨h1, h2, h3, h4, h5, h6, h7, h8, h9, h10, h11⟩ := hinv
  obtain ⟨main, walkers, builder, wg_data, wg_result, ch_data, ch_data_closed, ch_result,
    ch_result_closed, log, panic⟩ := s
  have hnb : ∀ b : BuilderPc, b ≠ .absent → builder = b → main.beforeBuild = false := by
    intro b hb e
    cases hbb : main.beforeBuild
    · rfl
    · exact absurd (e ▸ h7.2 hbb) hb
  cases builder <;>
    dsimp only [registered, registeredResult, BuilderPc.units, BuilderPc.pastLoop,
      BuilderPc.hasSent] at h1 h2 h3 h4 h5 h6 h7 h8 h9 h10 h11 <;>
    simp only [stepBuilder] at h
  case absent => exact absurd h (by simp)
  case start =>
    simp only [Option.some.injEq] at h
    subst h
    have hb := hnb _ (by simp) rfl
    constructor <;>
      dsimp only [registered, registeredResult, BuilderPc.units, BuilderPc.pastLoop,
        BuilderPc.hasSent] <;>
      first | assumption | omega | (simp; done) | (rw [hb]; simp; done) | (simp; omega) |
          (intro hp; cases h8 hp)
  case loop ts entry =>
    have hb := hnb _ (by simp) rfl
    split at h
    · simp only [Option.some.injEq] at h
      subst h
      constructor <;>
        dsimp only [registered, registeredResult, BuilderPc.units, BuilderPc.pastLoop,
          BuilderPc.hasSent] <;>
        first | assumption | omega | (simp; done) | (rw [hb]; simp; done) | (simp; omega) |
          (intro hp; cases h8 hp)
    · split at h
      · rename_i hc
        simp only [Option.some.injEq] at h
        subst h
        constructor <;>
          dsimp only [registered, registeredResult, BuilderPc.units, BuilderPc.pastLoop,
            BuilderPc.hasSent] <;>
          first | assumption | omega | (simp; done) | (rw [hb]; simp; done) | (simp; omega) |
          (intro hp; cases h8 hp) | (intro _; exact ⟨hc, rfl⟩)
      · exact absurd h (by simp)
  case send entry =>
    have hb := hnb _ (by simp) rfl
    have hr : ch_result = [] := h10 rfl
    subst hr
    have hnc : ch_result_closed = false := by
      cases hc : ch_result_closed
      · rfl
      · rw [hc] at h6
        exact absurd (h8 (pastWaitResult_of_pastCloseResult main h6.symm)) (by simp)
    subst hnc
    simp [ch_result_cap] at h
    subst h
    constructor <;>
      dsimp only [registered, registeredResult, BuilderPc.units, BuilderPc.pastLoop,
        BuilderPc.hasSent] <;>
      first | assumption | omega | (simp; done) | (rw [hb]; simp; done) | (simp; omega) |
          (intro hp; cases h8 hp)
  case ret =>
    have hb := hnb _ (by simp) rfl
    have hpos : ¬ (wg_result - 1 < 0) := by omega
    simp only [hpos, if_false, Option.some.injEq] at h
    subst h
    constructor <;>
      dsimp only [registered, registeredResult, BuilderPc.units, BuilderPc.pastLoop,
        BuilderPc.hasSent] <;>
      first | assumption | omega | (simp; done) | (rw [hb]; simp; done) | (simp; omega) |
          (intro hp; cases h8 hp)
  case gone => exact absurd h (by simp)

set_option maxHeartbeats 1000000 in
theorem controlInv_stepWalker (fs : FileSystem) (i : Nat) (s s' : RunState)
    (hinv : ControlInv s) (h : stepWalker fs i s = some s') : ControlInv s' := by
  obtain ⟨h1, h2, h3, h4, h5, h6, h7, h8, h9, h10, h11⟩ := hinv
  obtain ⟨main, walkers, builder, wg_data, wg_result, ch_data, ch_data_closed, ch_result,
    ch_result_closed, log, panic⟩ := s
  dsimp only [registered, registeredResult] at h1 h2 h3 h4 h5 h6 h7 h8 h9 h10 h11
  simp only [stepWalker] at h
  cases hw : walkers[i]? with
  | none => rw [hw] at h; exact absurd h (by simp)
  | some w =>
    rw [hw] at h
    obtain ⟨l₁, l₂, e, hset, herase⟩ := getElem?_split walkers i w hw
    simp only [hset, herase] at h
    clear hset herase hw
    subst e
    have hnp : main.pastWait = false := by
      cases hp : main.pastWait
      · rfl
      · exact absurd (h4 hp) (by simp)
    have hncl : ch_data_closed = false := by
      cases hc : ch_data_closed
      · rfl
      · rw [hc] at h5
        rw [pastWait_of_pastCloseData main h5.symm] at hnp
        exact absurd hnp (by simp)
    have hbl : builder.pastLoop = true → False := by
      intro hb
      rw [(h9 hb).1] at hncl
      exact absurd hncl (by simp)
    subst hncl
    obtain ⟨call, pc⟩ := w
    simp only [List.length_append, List.length_cons, List.countP_append, List.countP_cons] at h2
    cases pc <;> simp only [] at h
    case collect =>
      split at h <;> simp only [Option.some.injEq] at h <;> subst h <;> constructor <;>
        dsimp only [registered, registeredResult] <;>
        first | assumption | (rw [hnp]; simp; done) |
          (simp [List.countP_append, List.countP_cons] at h2 ⊢; omega)
    case send m =>
      simp only [Bool.false_eq_true, if_false] at h
      split at h
      · simp only [Option.some.injEq] at h
        subst h
        have hd : builder.pastLoop = true → false = true ∧ ch_data ++ [m] = [] :=
          fun hb => (hbl hb).elim
        constructor <;>
        dsimp only [registered, registeredResult] <;>
        first | assumption | (rw [hnp]; simp; done) | (simp; done) |
          (simp [List.countP_append, List.countP_cons] at h2 ⊢; omega)
      · exact absurd h (by simp)
    case list =>
      split at h <;> simp only [Option.some.injEq] at h <;> subst h <;>
      constructor <;>
        dsimp only [registered, registeredResult] <;>
        first | assumption | (rw [hnp]; simp; done) | (simp; done) |
          (simp [List.countP_append, List.countP_cons] at h2 ⊢; omega)
    case loop files =>
      cases files with
      | nil =>
        simp only [Option.some.injEq] at h
        subst h
        constructor <;>
        dsimp only [registered, registeredResult] <;>
        first | assumption | (rw [hnp]; simp; done) | (simp; done) |
          (simp [List.countP_append, List.countP_cons] at h2 ⊢; omega)
      | cons file rest =>
        simp only [] at h
        split at h <;> simp only [Option.some.injEq] at h <;> subst h <;>
        constructor <;>
        dsimp only [registered, registeredResult] <;>
        first | assumption | (rw [hnp]; simp; done) | (simp; done) |
          (simp [List.countP_append, List.countP_cons] at h2 ⊢; omega)
    case spawn child rest =>
      simp only [Option.some.injEq] at h
      subst h
      constructor <;>
        dsimp only [registered, registeredResult] <;>
        first | assumption | (rw [hnp]; simp; done) | (simp; done) |
          (simp [List.countP_append, List.countP_cons] at h2 ⊢; omega)
    case ret =>
      have hpos : ¬ (wg_data - 1 < 0) := by
        simp at h2
        omega
      simp only [hpos, if_false, Option.some.injEq] at h
      subst h
      constructor <;>
        dsimp only [registered, registeredResult] <;>
        first | assumption | (rw [hnp]; simp; done) | (simp; done) |
          (simp [List.countP_append, List.countP_cons] at h2 ⊢; omega)

theorem controlInv_step (fs : FileSystem) (l : Label) (s s' : RunState) (hinv : ControlInv s)
    (h : step fs l s = some s') : ControlInv s' := by
  unfold step at h
  split at h
  · exact absurd h (by simp)
  · cases l with
    | main => exact controlInv_stepMain s s' hinv h
    | builder now => exact controlInv_stepBuilder now s s' hinv h
    | walker i => exact controlInv_stepWalker fs i s s' hinv h

theorem reachable_controlInv (fs : FileSystem) (collect : List Collections) (s : RunState)
    (h : Reachable fs collect s) : ControlInv s := by
  induction h with
  | init => exact controlInv_init collect
  | step l s s' _ hstep ih => exact controlInv_step fs l s s' ih hstep

/-! ## The data invariant of a run -/

theorem invocations_unfold (fs : FileSystem) (c : Call) :
    invocations fs c = c :: (GetFromTree fs c).spawned.flatMap (invocations fs) := by
  unfold invocations
  by_cases hpos : 0 < c.depth
  · obtain ⟨m, hm⟩ : ∃ m, c.depth.toNat = m + 1 := ⟨c.depth.toNat - 1, by omega⟩
    rw [hm, walk]
    congr 1
    apply List.flatMap_congr
    intro ch hch
    have hd := (spawned_depth fs c ch hch).2.1
    have e : ch.depth.toNat = m := by omega
    rw [e]
  · have h0 : c.depth.toNat = 0 := by omega
    rw [h0, walk, GetFromTree_spawned, descend_of_nonpos fs c (by omega)]
    rfl

theorem mem_sentBy_unfold (fs : FileSystem) (c : Call) (m : Message) :
    m ∈ sentBy fs c ↔
      (GetFromTree fs c).sent = some m ∨ m ∈ (GetFromTree fs c).spawned.flatMap (sentBy fs) := by
  unfold sentBy
  rw [invocations_unfold, List.mem_filterMap]
  simp only [List.mem_cons, List.mem_flatMap, List.mem_filterMap]
  constructor
  · rintro ⟨i, (rfl | ⟨ch, hch, hi⟩), hm⟩
    · exact Or.inl hm
    · exact Or.inr ⟨ch, hch, i, hi, hm⟩
  · rintro (hm | ⟨ch, hch, i, hi, hm⟩)
    · exact ⟨c, Or.inl rfl, hm⟩
    · exact ⟨i, Or.inr ⟨ch, hch, hi⟩, hm⟩

theorem spawnFor_cons_dir (c : Call) (file : FileInfo) (rest : List FileInfo)
    (h : file.IsDir = true) :
    spawnFor c (file :: rest)
      = ⟨childName c.cgroup file.Name, c.depth - 1, c.controllers⟩ :: spawnFor c rest := by
  simp [spawnFor, List.filterMap_cons, h]

theorem spawnFor_cons_file (c : Call) (file : FileInfo) (rest : List FileInfo)
    (h : ¬ file.IsDir = true) : spawnFor c (file :: rest) = spawnFor c rest := by
  simp [spawnFor, List.filterMap_cons, h]

theorem spawned_of_pos (fs : FileSystem) (c : Call) (h : c.depth > 0) :
    (GetFromTree fs c).spawned = spawnFor c (ioutil_ReadDir fs (cgroupPathOf c.cgroup)).1 := by
  rw [GetFromTree_spawned]
  simp [descend, h]

theorem spawned_of_not_pos (fs : FileSystem) (c : Call) (h : ¬ c.depth > 0) :
    (GetFromTree fs c).spawned = [] := by
  rw [GetFromTree_spawned]
  simp [descend, h]

theorem build_entry_snoc (ts : String) (received : List Message) (m : Message) :
    build_entry ts (received ++ [m]) = mergeMessage ts (build_entry ts received) m := by
  simp [build_entry, List.foldl_append]

theorem isDone_imp_pastWaitResult (m : MainPc) (h : m.isDone = true) :
    m.pastWaitResult = true := by
  cases m <;> first | rfl | (simp at h)

theorem dataInv_init (fs : FileSystem) (collect : List Collections) :
    DataInv fs collect (initState collect) := by
  refine ⟨[], rfl, ?_⟩
  intro m
  simp [initState, pendingMain, expected]

theorem builderRel_main (s s' : RunState) (received : List Message)
    (hb : s'.builder = s.builder) (hr : s'.ch_result = s.ch_result)
    (h1 : s.main.isDone = false) (h2 : s'.main.isDone = false)
    (h : BuilderRel s received) : BuilderRel s' received := by
  unfold BuilderRel at h ⊢
  rw [hb, hr, h2]
  rw [h1] at h
  cases hbb : s.builder <;> rw [hbb] at h <;> simp only at h ⊢
  all_goals first | exact h | skip
  obtain ⟨ts, h | h⟩ := h
  · exact ⟨ts, Or.inl h⟩
  · rw [h] at h1
    exact absurd h1 (by simp)

set_option maxHeartbeats 1000000 in
theorem dataInv_stepMain (fs : FileSystem) (collect : List Collections) (s s' : RunState)
    (hc : ControlInv s) (hd : DataInv fs collect s) (h : stepMain s = some s') :
    DataInv fs collect s' := by
  obtain ⟨received, hrel, hmem⟩ := hd
  cases hm : s.main with
  | launch rest =>
    cases rest with
    | nil =>
      simp only [stepMain, hm, Option.some.injEq] at h
      subst h
      refine ⟨received, builderRel_main s _ received rfl rfl (by simp [hm]) rfl hrel, ?_⟩
      intro m
      rw [hmem m, hm]
      simp [pendingMain]
    | cons c rest =>
      simp only [stepMain, hm, Option.some.injEq] at h
      subst h
      refine ⟨received, builderRel_main s _ received rfl rfl (by simp [hm]) rfl hrel, ?_⟩
      intro m
      rw [hmem m, hm]
      simp [pendingMain]
  | spawn c rest =>
    simp only [stepMain, hm, Option.some.injEq] at h
    subst h
    refine ⟨received, builderRel_main s _ received rfl rfl (by simp [hm]) rfl hrel, ?_⟩
    intro m
    rw [hmem m, hm]
    simp only [pendingMain, List.mem_append, pendingWalker, List.flatMap_append,
      List.flatMap_cons, List.flatMap_nil, List.append_nil]
    tauto
  | addResult =>
    simp only [stepMain, hm, Option.some.injEq] at h
    subst h
    refine ⟨received, builderRel_main s _ received rfl rfl (by simp [hm]) rfl hrel, ?_⟩
    intro m
    rw [hmem m, hm]
    simp [pendingMain]
  | goBuild =>
    simp only [stepMain, hm, Option.some.injEq] at h
    subst h
    have hb : s.builder = .absent := hc.builder_absent.2 (by simp [hm])
    have hr : received = [] := by
      unfold BuilderRel at hrel
      rw [hb] at hrel
      exact hrel
    refine ⟨received, hr, ?_⟩
    intro m
    rw [hmem m, hm]
    simp [pendingMain]
  | waitData =>
    simp only [stepMain, hm] at h
    split at h
    · simp only [Option.some.injEq] at h
      subst h
      refine ⟨received, builderRel_main s _ received rfl rfl (by simp [hm]) rfl hrel, ?_⟩
      intro m
      rw [hmem m, hm]
      simp [pendingMain]
    · exact absurd h (by simp)
  | closeData =>
    simp only [stepMain, hm] at h
    split at h
    · rename_i hcl
      have := hc.data_closed
      rw [hm, hcl] at this
      exact absurd this (by simp)
    · simp only [Option.some.injEq] at h
      subst h
      refine ⟨received, builderRel_main s _ received rfl rfl (by simp [hm]) rfl hrel, ?_⟩
      intro m
      rw [hmem m, hm]
      simp [pendingMain]
  | waitResult =>
    simp only [stepMain, hm] at h
    split at h
    · simp only [Option.some.injEq] at h
      subst h
      refine ⟨received, builderRel_main s _ received rfl rfl (by simp [hm]) rfl hrel, ?_⟩
      intro m
      rw [hmem m, hm]
      simp [pendingMain]
    · exact absurd h (by simp)
  | closeResult =>
    simp only [stepMain, hm] at h
    split at h
    · rename_i hcl
      have := hc.result_closed
      rw [hm, hcl] at this
      exact absurd this (by simp)
    · simp only [Option.some.injEq] at h
      subst h
      refine ⟨received, builderRel_main s _ received rfl rfl (by simp [hm]) rfl hrel, ?_⟩
      intro m
      rw [hmem m, hm]
      simp [pendingMain]
  | recvResult =>
    have hb : s.builder = .gone := hc.builder_gone (by simp [hm])
    have hres : ∃ ts, s.ch_result = [build_entry ts received] := by
      unfold BuilderRel at hrel
      rw [hb] at hrel
      obtain ⟨ts, h1 | h1⟩ := hrel
      · exact ⟨ts, h1.1⟩
      · rw [hm] at h1
        exact absurd h1 (by simp)
    obtain ⟨ts, hres⟩ := hres
    simp only [stepMain, hm, hres, Option.some.injEq] at h
    subst h
    refine ⟨received, ?_, ?_⟩
    · unfold BuilderRel
      simp only [hb]
      exact ⟨ts, Or.inr rfl⟩
    · intro m
      rw [hmem m, hm]
      simp [pendingMain]
  | done r => simp [stepMain, hm] at h

set_option maxHeartbeats 1000000 in
theorem dataInv_stepBuilder (fs : FileSystem) (collect : List Collections) (now : String)
    (s s' : RunState) (hc : ControlInv s) (hd : DataInv fs collect s)
    (h : stepBuilder now s = some s') : DataInv fs collect s' := by
  obtain ⟨received, hrel, hmem⟩ := hd
  unfold BuilderRel at hrel
  cases hb : s.builder with
  | absent => simp [stepBuilder, hb] at h
  | start =>
    rw [hb] at hrel
    simp only [stepBuilder, hb, Option.some.injEq] at h
    subst h
    refine ⟨received, ?_, hmem⟩
    unfold BuilderRel
    simp only
    rw [hrel]
    rfl
  | loop ts entry =>
    rw [hb] at hrel
    simp only at hrel
    simp only [stepBuilder, hb] at h
    split at h
    · rename_i m rest hch
      simp only [Option.some.injEq] at h
      subst h
      refine ⟨received ++ [m], ?_, ?_⟩
      · unfold BuilderRel
        simp only
        rw [build_entry_snoc, hrel]
      · intro x
        rw [hmem x, hch]
        simp only [List.mem_append, List.mem_cons, List.not_mem_nil, or_false]
        constructor
        · rintro (h | (h | h) | h)
          · exact Or.inl (Or.inl h)
          · exact Or.inl (Or.inr h)
          · exact Or.inr (Or.inl h)
          · exact Or.inr (Or.inr h)
        · rintro ((h | h) | h | h)
          · exact Or.inl h
          · exact Or.inr (Or.inl (Or.inl h))
          · exact Or.inr (Or.inl (Or.inr h))
          · exact Or.inr (Or.inr h)
    · split at h
      · simp only [Option.some.injEq] at h
        subst h
        refine ⟨received, ?_, hmem⟩
        unfold BuilderRel
        simp only
        exact ⟨ts, hrel⟩
      · exact absurd h (by simp)
  | send entry =>
    rw [hb] at hrel
    simp only at hrel
    have hnd : s.main.pastWaitResult = false := by
      cases hp : s.main.pastWaitResult
      · rfl
      · have := hc.builder_gone hp
        rw [hb] at this
        exact absurd this (by simp)
    have hncl : s.ch_result_closed = false := by
      cases hcl : s.ch_result_closed
      · rfl
      · have := hc.result_closed
        rw [hcl] at this
        rw [pastWaitResult_of_pastCloseResult _ this.symm] at hnd
        exact absurd hnd (by simp)
    have hempty : s.ch_result = [] := hc.result_empty (by simp [hb])
    have hnotdone : s.main.isDone = false := by
      cases hdn : s.main.isDone
      · rfl
      · rw [isDone_imp_pastWaitResult _ hdn] at hnd
        exact absurd hnd (by simp)
    simp [stepBuilder, hb, hncl, hempty, ch_result_cap] at h
    subst h
    refine ⟨received, ?_, hmem⟩
    unfold BuilderRel
    simp only
    obtain ⟨ts, hts⟩ := hrel
    exact ⟨ts, by rw [hts], hnotdone⟩
  | ret =>
    rw [hb] at hrel
    simp only at hrel
    have hpos : ¬ (s.wg_result - 1 < 0) := by
      have := hc.wg_result_eq
      simp only [registeredResult, hb, BuilderPc.units] at this
      omega
    simp only [stepBuilder, hb, hpos, if_false, Option.some.injEq] at h
    subst h
    refine ⟨received, ?_, hmem⟩
    unfold BuilderRel
    simp only
    obtain ⟨ts, hts⟩ := hrel
    exact ⟨ts, Or.inl hts⟩
  | gone => simp [stepBuilder, hb] at h

set_option maxHeartbeats 1000000 in
theorem dataInv_stepWalker (fs : FileSystem) (cfg : List Collections) (i : Nat)
    (s s' : RunState) (hc : ControlInv s) (hd : DataInv fs cfg s)
    (h : stepWalker fs i s = some s') : DataInv fs cfg s' := by
  obtain ⟨received, hrel, hmem⟩ := hd
  simp only [stepWalker] at h
  cases hw : s.walkers[i]? with
  | none => rw [hw] at h; exact absurd h (by simp)
  | some w =>
    rw [hw] at h
    obtain ⟨l₁, l₂, e, hset, herase⟩ := getElem?_split s.walkers i w hw
    simp only [hset, herase] at h
    clear hset herase hw
    have hncl : s.ch_data_closed = false := by
      cases hcl : s.ch_data_closed
      · rfl
      · have h5 := hc.data_closed
        rw [hcl] at h5
        have := hc.walkers_done (pastWait_of_pastCloseData _ h5.symm)
        rw [e] at this
        exact absurd this (by simp)
    have hwg : ¬ (s.wg_data - 1 < 0) := by
      have := hc.wg_data_eq
      simp only [registered, e, List.length_append, List.length_cons] at this
      omega
    obtain ⟨call, pc⟩ := w
    cases pc <;> simp only [] at h
    case collect =>
      have key : ∀ m, m ∈ pendingWalker fs ⟨call, .collect⟩ ↔
          (toSend call.cgroup (collect fs call.cgroup call.controllers).1 = some m ∨
            m ∈ (GetFromTree fs call).spawned.flatMap (sentBy fs)) :=
        fun m => mem_sentBy_unfold fs call m
      split at h <;> rename_i hs <;> simp only [Option.some.injEq] at h <;> subst h <;>
        refine ⟨received, hrel, ?_⟩ <;> intro m <;> rw [hmem m, e] <;>
        simp only [List.flatMap_append, List.flatMap_cons, List.mem_append, key, hs] <;>
        simp only [pendingWalker, List.mem_cons, Option.some.injEq] <;>
        tauto
    case send m0 =>
      simp only [hncl, Bool.false_eq_true, if_false] at h
      split at h
      · simp only [Option.some.injEq] at h
        subst h
        refine ⟨received, hrel, ?_⟩
        intro m
        rw [hmem m, e]
        simp only [List.flatMap_append, List.flatMap_cons, List.mem_append, pendingWalker,
          List.mem_cons, List.not_mem_nil, or_false]
        tauto
      · exact absurd h (by simp)
    case list =>
      split at h <;> rename_i hdp <;> simp only [Option.some.injEq] at h <;> subst h <;>
        refine ⟨received, hrel, ?_⟩ <;> intro m <;> rw [hmem m, e] <;>
        simp only [List.flatMap_append, List.flatMap_cons, List.mem_append, pendingWalker]
      · rw [spawned_of_pos fs call hdp]
      · rw [spawned_of_not_pos fs call hdp]
        simp
    case loop files =>
      cases files with
      | nil =>
        simp only [Option.some.injEq] at h
        subst h
        refine ⟨received, hrel, ?_⟩
        intro m
        rw [hmem m, e]
        simp [List.flatMap_append, List.flatMap_cons, List.mem_append, pendingWalker, spawnFor]
      | cons file rest =>
        simp only [] at h
        split at h <;> rename_i hdir <;> simp only [Option.some.injEq] at h <;> subst h <;>
          refine ⟨received, hrel, ?_⟩ <;> intro m <;> rw [hmem m, e] <;>
          simp only [List.flatMap_append, List.flatMap_cons, List.mem_append, pendingWalker]
        · rw [spawnFor_cons_dir call file rest hdir]
          simp only [List.flatMap_cons, List.mem_append]
        · rw [spawnFor_cons_file call file rest hdir]
    case spawn child rest =>
      simp only [Option.some.injEq] at h
      subst h
      refine ⟨received, hrel, ?_⟩
      intro m
      rw [hmem m, e]
      simp only [List.flatMap_append, List.flatMap_cons, List.flatMap_nil, List.append_nil,
        List.mem_append, pendingWalker]
      tauto
    case ret =>
      simp only [hwg, if_false, Option.some.injEq] at h
      subst h
      refine ⟨received, hrel, ?_⟩
      intro m
      rw [hmem m, e]
      simp [List.flatMap_append, List.flatMap_cons, List.mem_append, pendingWalker]

theorem dataInv_step (fs : FileSystem) (cfg : List Collections) (l : Label) (s s' : RunState)
    (hc : ControlInv s) (hd : DataInv fs cfg s) (h : step fs l s = some s') :
    DataInv fs cfg s' := by
  unfold step at h
  split at h
  · exact absurd h (by simp)
  · cases l with
    | main => exact dataInv_stepMain fs cfg s s' hc hd h
    | builder now => exact dataInv_stepBuilder fs cfg now s s' hc hd h
    | walker i => exact dataInv_stepWalker fs cfg i s s' hc hd h

theorem reachable_dataInv (fs : FileSystem) (cfg : List Collections) (s : RunState)
    (h : Reachable fs cfg s) : DataInv fs cfg s := by
  induction h with
  | init => exact dataInv_init fs cfg
  | step l s s' hr hstep ih =>
    exact dataInv_step fs cfg l s s' (reachable_controlInv fs cfg s hr) ih hstep

/-! ## What `main` receives -/

theorem mem_sentBy (fs : FileSystem) (c : Call) (m : Message) :
    m ∈ sentBy fs c ↔ ∃ i ∈ invocations fs c, (GetFromTree fs i).sent = some m := by
  simp [sentBy, List.mem_filterMap]

theorem mem_expected (fs : FileSystem) (cfg : List Collections) (m : Message) :
    m ∈ expected fs cfg ↔
      ∃ c ∈ cfg, ∃ i ∈ invocations fs c.toCall, (GetFromTree fs i).sent = some m := by
  simp [expected, List.mem_flatMap, mem_sentBy]

theorem sent_eq_some_iff (fs : FileSystem) (i : Call) (m : Message) :
    (GetFromTree fs i).sent = some m ↔
      0 < (metricsOf fs i.cgroup i.controllers).len ∧
        m = [(i.cgroup, metricsOf fs i.cgroup i.controllers)] := by
  rw [GetFromTree_sent]
  by_cases h : 0 < (metricsOf fs i.cgroup i.controllers).len
  · rw [if_pos h]
    constructor
    · intro e
      exact ⟨h, (Option.some.inj e).symm⟩
    · rintro ⟨_, e⟩
      rw [e]
  · rw [if_neg h]
    constructor
    · intro e
      exact absurd e (by simp)
    · rintro ⟨h', _⟩
      exact absurd h' h

theorem metricsOf_of_len_pos (fs : FileSystem) (cgroup : String) (controllers : List String)
    (h : 0 < (metricsOf fs cgroup controllers).len) :
    metricsOf fs cgroup controllers = memoryData fs (cgroupPathOf cgroup) := by
  rw [metricsOf_eq_memoryData] at h ⊢
  split
  · rfl
  · rename_i hn
    rw [if_neg hn] at h
    simp [GoMap.len] at h

theorem reachable_done (fs : FileSystem) (cfg : List Collections) (s : RunState)
    (result : Entry) (hreach : Reachable fs cfg s) (hdone : s.main = .done result) :
    ∃ timestamp received, result = build_entry timestamp received ∧
      ∀ m, m ∈ expected fs cfg ↔ m ∈ received := by
  have hc := reachable_controlInv fs cfg s hreach
  obtain ⟨received, hrel, hmem⟩ := reachable_dataInv fs cfg s hreach
  have hb : s.builder = .gone := hc.builder_gone (by simp [hdone])
  have hw : s.walkers = [] := hc.walkers_done (by simp [hdone])
  have hch : s.ch_data = [] := (hc.builder_pastLoop (by simp [hb])).2
  unfold BuilderRel at hrel
  rw [hb] at hrel
  obtain ⟨ts, h1 | h1⟩ := hrel
  · have := h1.2
    rw [hdone] at this
    exact absurd this (by simp)
  · rw [hdone] at h1
    refine ⟨ts, received, MainPc.done.inj h1, ?_⟩
    intro m
    rw [hmem m, hw, hch, hdone]
    simp [pendingMain]

theorem get?_nodeEntries_expected (fs : FileSystem) (cfg : List Collections)
    (received : List Message) (hmem : ∀ m, m ∈ expected fs cfg ↔ m ∈ received)
    (node : String) (metrics : GoMap String) :
    (nodeEntries received).get? node = some metrics ↔
      ∃ c ∈ cfg, ∃ i ∈ invocations fs c.toCall, i.cgroup = node ∧
        metricsOf fs i.cgroup i.controllers = metrics ∧ 0 < metrics.len := by
  have hform : ∀ msg ∈ received, ∃ c ∈ cfg, ∃ i ∈ invocations fs c.toCall,
      0 < (metricsOf fs i.cgroup i.controllers).len ∧
        msg = [(i.cgroup, metricsOf fs i.cgroup i.controllers)] := by
    intro msg hmsg
    obtain ⟨c, hc, i, hi, hs⟩ := (mem_expected fs cfg msg).1 ((hmem msg).2 hmsg)
    exact ⟨c, hc, i, hi, (sent_eq_some_iff fs i msg).1 hs⟩
  have hcons : ∀ msg ∈ received, ∀ kv ∈ msg, kv.1 = node →
      kv.2 = memoryData fs (cgroupPathOf node) := by
    intro msg hmsg kv hkv hk
    obtain ⟨c, _, i, _, hpos, e⟩ := hform msg hmsg
    rw [e, List.mem_singleton] at hkv
    subst hkv
    simp only at hk ⊢
    rw [← hk]
    exact metricsOf_of_len_pos fs _ _ hpos
  rw [get?_nodeEntries node _ received hcons]
  constructor
  · intro h
    split at h
    · rename_i hex
      obtain ⟨msg, hmsg, hk⟩ := hex
      obtain ⟨c, hc, i, hi, hpos, e⟩ := hform msg hmsg
      have hn : node = i.cgroup := by
        rw [e] at hk
        simpa [GoMap.keys] using hk
      have hm : metrics = memoryData fs (cgroupPathOf node) := (Option.some.inj h).symm
      have hmo := metricsOf_of_len_pos fs _ _ hpos
      refine ⟨c, hc, i, hi, hn.symm, ?_, ?_⟩
      · rw [hmo, hm, hn]
      · rw [hm, hn, ← hmo]
        exact hpos
    · exact absurd h (by simp)
  · rintro ⟨c, hc, i, hi, hn, hm, hpos⟩
    rw [← hm] at hpos
    have hsent : (GetFromTree fs i).sent = some [(i.cgroup, metricsOf fs i.cgroup i.controllers)] :=
      (sent_eq_some_iff fs i _).2 ⟨hpos, rfl⟩
    have hrec : [(i.cgroup, metricsOf fs i.cgroup i.controllers)] ∈ received :=
      (hmem _).1 ((mem_expected fs cfg _).2 ⟨c, hc, i, hi, hsent⟩)
    have hex : ∃ msg ∈ received, node ∈ GoMap.keys msg :=
      ⟨_, hrec, by simp [GoMap.keys, hn]⟩
    rw [if_pos hex, ← hm, metricsOf_of_len_pos fs _ _ hpos, hn]

theorem reachable_runSchedule (fs : FileSystem) (cfg : List Collections) (ls : List Label) :
    ∀ s, Reachable fs cfg s → Reachable fs cfg (runSchedule fs s ls) := by
  induction ls with
  | nil => intro s h; exact h
  | cons l ls ih =>
    intro s h
    unfold runSchedule
    cases hs : step fs l s with
    | none => exact ih s h
    | some s' => exact ih s' (Reachable.step l s s' h hs)

set_option linter.unnecessarySeqFocus false

/-! ## Every run ends -/

theorem totalCost_eq (fs : FileSystem) (c : Call) :
    totalCost fs c = 4 + descentCost fs c := by
  unfold totalCost descentCost
  by_cases hpos : c.depth > 0
  · obtain ⟨m, hm⟩ : ∃ m, c.depth.toNat = m + 1 := ⟨c.depth.toNat - 1, by omega⟩
    rw [hm, callCost, if_pos hpos, if_pos hpos]
    have e : (c.depth - 1).toNat = m := by omega
    simp only [filesCost, totalCost, e]
  · have h0 : c.depth.toNat = 0 := by omega
    rw [h0, callCost, if_neg hpos]

theorem stepsLeft_stepMain (fs : FileSystem) (s s' : RunState) (hc : ControlInv s)
    (h : stepMain s = some s') : stepsLeft fs s' < stepsLeft fs s := by
  cases hm : s.main with
  | launch rest =>
    cases rest with
    | nil =>
      simp only [stepMain, hm, Option.some.injEq] at h
      subst h
      simp [stepsLeft, mainCost, hm]
    | cons c rest =>
      simp only [stepMain, hm, Option.some.injEq] at h
      subst h
      simp [stepsLeft, mainCost, hm]
      omega
  | spawn c rest =>
    simp only [stepMain, hm, Option.some.injEq] at h
    subst h
    simp [stepsLeft, mainCost, hm, walkerCost, totalCost_eq]
    omega
  | addResult =>
    simp only [stepMain, hm, Option.some.injEq] at h
    subst h
    simp [stepsLeft, mainCost, hm]
  | goBuild =>
    have hb : s.builder = .absent := hc.builder_absent.2 (by simp [hm])
    simp only [stepMain, hm, Option.some.injEq] at h
    subst h
    simp [stepsLeft, mainCost, hm, hb, builderCost]
  | waitData =>
    simp only [stepMain, hm] at h
    split at h
    · simp only [Option.some.injEq] at h
      subst h
      simp [stepsLeft, mainCost, hm]
    · exact absurd h (by simp)
  | closeData =>
    simp only [stepMain, hm] at h
    split at h
    · rename_i hcl
      have := hc.data_closed
      rw [hm, hcl] at this
      exact absurd this (by simp)
    · simp only [Option.some.injEq] at h
      subst h
      simp [stepsLeft, mainCost, hm]
  | waitResult =>
    simp only [stepMain, hm] at h
    split at h
    · simp only [Option.some.injEq] at h
      subst h
      simp [stepsLeft, mainCost, hm]
    · exact absurd h (by simp)
  | closeResult =>
    simp only [stepMain, hm] at h
    split at h
    · rename_i hcl
      have := hc.result_closed
      rw [hm, hcl] at this
      exact absurd this (by simp)
    · simp only [Option.some.injEq] at h
      subst h
      simp [stepsLeft, mainCost, hm]
  | recvResult =>
    simp only [stepMain, hm] at h
    split at h
    · simp only [Option.some.injEq] at h
      subst h
      simp [stepsLeft, mainCost, hm]
    · split at h
      · simp only [Option.some.injEq] at h
        subst h
        simp [stepsLeft, mainCost, hm]
      · exact absurd h (by simp)
  | done r => simp [stepMain, hm] at h

theorem stepsLeft_stepBuilder (fs : FileSystem) (now : String) (s s' : RunState)
    (hc : ControlInv s) (h : stepBuilder now s = some s') :
    stepsLeft fs s' < stepsLeft fs s := by
  have hc' := controlInv_stepBuilder now s s' hc h
  cases hb : s.builder with
  | absent => simp [stepBuilder, hb] at h
  | start =>
    simp only [stepBuilder, hb, Option.some.injEq] at h
    subst h
    simp [stepsLeft, builderCost, hb]
  | loop ts entry =>
    simp only [stepBuilder, hb] at h
    split at h
    · rename_i m rest hch
      simp only [Option.some.injEq] at h
      subst h
      simp [stepsLeft, builderCost, hb, hch]
    · split at h
      · simp only [Option.some.injEq] at h
        subst h
        simp [stepsLeft, builderCost, hb]
      · exact absurd h (by simp)
  | send entry =>
    simp only [stepBuilder, hb] at h
    split at h
    · simp only [Option.some.injEq] at h
      subst h
      exact absurd hc'.no_panic (by simp)
    · split at h
      · simp only [Option.some.injEq] at h
        subst h
        simp [stepsLeft, builderCost, hb]
      · exact absurd h (by simp)
  | ret =>
    simp only [stepBuilder, hb] at h
    split at h
    · simp only [Option.some.injEq] at h
      subst h
      exact absurd hc'.no_panic (by simp)
    · simp only [Option.some.injEq] at h
      subst h
      simp [stepsLeft, builderCost, hb]
  | gone => simp [stepBuilder, hb] at h

theorem filesCost_cons (fs : FileSystem) (c : Call) (file : FileInfo) (rest : List FileInfo) :
    filesCost fs c (file :: rest)
      = (if file.IsDir then
          2 + totalCost fs ⟨childName c.cgroup file.Name, c.depth - 1, c.controllers⟩
        else 1) + filesCost fs c rest := by
  simp [filesCost]

set_option maxHeartbeats 1000000 in
theorem stepsLeft_stepWalker (fs : FileSystem) (i : Nat) (s s' : RunState)
    (hc : ControlInv s) (h : stepWalker fs i s = some s') :
    stepsLeft fs s' < stepsLeft fs s := by
  have hc' := controlInv_stepWalker fs i s s' hc h
  simp only [stepWalker] at h
  cases hw : s.walkers[i]? with
  | none => rw [hw] at h; exact absurd h (by simp)
  | some w =>
    rw [hw] at h
    obtain ⟨l₁, l₂, e, hset, herase⟩ := getElem?_split s.walkers i w hw
    simp only [hset, herase] at h
    clear hset herase hw
    obtain ⟨call, pc⟩ := w
    cases pc <;> simp only [] at h
    case collect =>
      split at h <;> simp only [Option.some.injEq] at h <;> subst h <;>
        simp [stepsLeft, e, walkerCost] <;> omega
    case send m0 =>
      split at h
      · simp only [Option.some.injEq] at h
        subst h
        exact absurd hc'.no_panic (by simp)
      · split at h
        · simp only [Option.some.injEq] at h
          subst h
          simp [stepsLeft, e, walkerCost]
          omega
        · exact absurd h (by simp)
    case list =>
      split at h <;> rename_i hdp <;> simp only [Option.some.injEq] at h <;> subst h <;>
        simp [stepsLeft, e, walkerCost, descentCost, hdp] <;> first | omega | skip
    case loop files =>
      cases files with
      | nil =>
        simp only [Option.some.injEq] at h
        subst h
        simp [stepsLeft, e, walkerCost, filesCost]
      | cons file rest =>
        simp only [] at h
        split at h <;> rename_i hdir <;> simp only [Option.some.injEq] at h <;> subst h <;>
          simp [stepsLeft, e, walkerCost, filesCost_cons, hdir] <;> omega
    case spawn child rest =>
      simp only [Option.some.injEq] at h
      subst h
      simp [stepsLeft, e, walkerCost, totalCost_eq]
      omega
    case ret =>
      split at h
      · simp only [Option.some.injEq] at h
        subst h
        exact absurd hc'.no_panic (by simp)
      · simp only [Option.some.injEq] at h
        subst h
        simp [stepsLeft, e, walkerCost]

theorem stepsLeft_step (fs : FileSystem) (l : Label) (s s' : RunState) (hc : ControlInv s)
    (h : step fs l s = some s') : stepsLeft fs s' < stepsLeft fs s := by
  unfold step at h
  split at h
  · exact absurd h (by simp)
  · cases l with
    | main => exact stepsLeft_stepMain fs s s' hc h
    | builder now => exact stepsLeft_stepBuilder fs now s s' hc h
    | walker i => exact stepsLeft_stepWalker fs i s s' hc h

/-! ## No run gets stuck -/

theorem exists_step_of_isSome (fs : FileSystem) (l : Label) (s : RunState)
    (hp : s.panic = none) (h : (match l with
      | .main => stepMain s
      | .builder now => stepBuilder now s
      | .walker i => stepWalker fs i s).isSome = true) :
    ∃ l s', step fs l s = some s' := by
  refine ⟨l, ?_⟩
  apply Option.isSome_iff_exists.1
  unfold step
  rw [hp]
  simpa using h

theorem builder_can_receive (now : String) (s : RunState) (hc : ControlInv s)
    (hm : s.main.beforeBuild = false) (hch : s.ch_data ≠ []) :
    (stepBuilder now s).isSome = true := by
  cases hb : s.builder with
  | absent => exact absurd (hc.builder_absent.1 hb) (by rw [hm]; simp)
  | start => simp [stepBuilder, hb]
  | loop ts entry =>
    cases hd : s.ch_data with
    | nil => exact absurd hd hch
    | cons m rest => simp [stepBuilder, hb, hd]
  | send entry => exact absurd (hc.builder_pastLoop (by simp [hb])).2 hch
  | ret => exact absurd (hc.builder_pastLoop (by simp [hb])).2 hch
  | gone => exact absurd (hc.builder_pastLoop (by simp [hb])).2 hch

theorem walker_can_step (fs : FileSystem) (s : RunState) (w : Walker) (t : List Walker)
    (hw : s.walkers = w :: t) (hfree : s.ch_data.length < ch_data_cap) :
    (stepWalker fs 0 s).isSome = true := by
  obtain ⟨call, pc⟩ := w
  cases pc with
  | collect =>
    simp only [stepWalker, hw, List.getElem?_cons_zero]
    split <;> simp
  | send m =>
    simp only [stepWalker, hw, List.getElem?_cons_zero]
    split
    · simp
    · simp [hfree]
  | list =>
    simp only [stepWalker, hw, List.getElem?_cons_zero]
    split <;> simp
  | loop files =>
    cases files with
    | nil => simp [stepWalker, hw]
    | cons file rest =>
      simp only [stepWalker, hw, List.getElem?_cons_zero]
      split <;> simp
  | spawn child rest => simp [stepWalker, hw]
  | ret =>
    simp only [stepWalker, hw, List.getElem?_cons_zero]
    split <;> simp

theorem builder_can_finish (now : String) (s : RunState) (hc : ControlInv s)
    (hcl : s.ch_data_closed = true) (hlive : s.builder.units = 1) :
    (stepBuilder now s).isSome = true := by
  cases hb : s.builder with
  | absent => rw [hb] at hlive; simp at hlive
  | start => simp [stepBuilder, hb]
  | loop ts entry =>
    cases hd : s.ch_data with
    | nil => simp [stepBuilder, hb, hd, hcl]
    | cons m rest => simp [stepBuilder, hb, hd]
  | send entry =>
    have he : s.ch_result = [] := hc.result_empty (by simp [hb])
    simp only [stepBuilder, hb]
    split
    · simp
    · simp [he, ch_result_cap]
  | ret =>
    simp only [stepBuilder, hb]
    split <;> simp
  | gone => rw [hb] at hlive; simp at hlive

theorem can_step (fs : FileSystem) (s : RunState) (hc : ControlInv s)
    (hnd : s.main.isDone = false) : ∃ l s', step fs l s = some s' := by
  have hp := hc.no_panic
  cases hm : s.main with
  | launch rest =>
    refine exists_step_of_isSome fs .main s hp ?_
    cases rest <;> simp [stepMain, hm]
  | spawn c rest =>
    refine exists_step_of_isSome fs .main s hp ?_
    simp [stepMain, hm]
  | addResult =>
    refine exists_step_of_isSome fs .main s hp ?_
    simp [stepMain, hm]
  | goBuild =>
    refine exists_step_of_isSome fs .main s hp ?_
    simp [stepMain, hm]
  | waitData =>
    by_cases h0 : s.wg_data = 0
    · refine exists_step_of_isSome fs .main s hp ?_
      simp [stepMain, hm, h0]
    · have hreg := hc.wg_data_eq
      cases hw : s.walkers with
      | nil =>
        simp [registered, hw, hm] at hreg
        exact absurd hreg h0
      | cons w t =>
        by_cases hfree : s.ch_data.length < ch_data_cap
        · exact exists_step_of_isSome fs (.walker 0) s hp (walker_can_step fs s w t hw hfree)
        · refine exists_step_of_isSome fs (.builder "") s hp
            (builder_can_receive "" s hc (by simp [hm]) ?_)
          intro he
          rw [he] at hfree
          simp [ch_data_cap] at hfree
  | closeData =>
    refine exists_step_of_isSome fs .main s hp ?_
    simp only [stepMain, hm]
    split <;> simp
  | waitResult =>
    by_cases h0 : s.wg_result = 0
    · refine exists_step_of_isSome fs .main s hp ?_
      simp [stepMain, hm, h0]
    · have hreg := hc.wg_result_eq
      have hcl : s.ch_data_closed = true := by
        have := hc.data_closed
        simpa [hm] using this
      have hlive : s.builder.units = 1 := by
        simp only [registeredResult, hm, MainPc.pendingResult] at hreg
        cases hb : s.builder <;> simp [hb] at hreg ⊢ <;> omega
      exact exists_step_of_isSome fs (.builder "") s hp (builder_can_finish "" s hc hcl hlive)
  | closeResult =>
    refine exists_step_of_isSome fs .main s hp ?_
    simp only [stepMain, hm]
    split <;> simp
  | recvResult =>
    have hcl : s.ch_result_closed = true := by
      have := hc.result_closed
      simpa [hm] using this
    refine exists_step_of_isSome fs .main s hp ?_
    cases hr : s.ch_result <;> simp [stepMain, hm, hr, hcl]
  | done r =>
    rw [hm] at hnd
    exact absurd hnd (by simp)

theorem exists_complete_schedule (fs : FileSystem) :
    ∀ (n : Nat) (s : RunState), ControlInv s → stepsLeft fs s ≤ n →
      ∃ ls, (runSchedule fs s ls).main.isDone = true := by
  intro n
  induction n with
  | zero =>
    intro s hc hn
    cases hd : s.main.isDone
    · obtain ⟨l, s', hs⟩ := can_step fs s hc hd
      have := stepsLeft_step fs l s s' hc hs
      omega
    · exact ⟨[], hd⟩
  | succ n ih =>
    intro s hc hn
    cases hd : s.main.isDone
    · obtain ⟨l, s', hs⟩ := can_step fs s hc hd
      have hlt := stepsLeft_step fs l s s' hc hs
      obtain ⟨ls, hls⟩ := ih s' (controlInv_step fs l s s' hc hs) (by omega)
      refine ⟨l :: ls, ?_⟩
      simp only [runSchedule, hs]
      exact hls
    · exact ⟨[], hd⟩

theorem stepWalker_list_of_listErr (fs : FileSystem) (i : Nat) (s : RunState) (c : Call)
    (err : String) (hw : s.walkers[i]? = some ⟨c, .list⟩) (hdepth : 0 < c.depth)
    (hfail : fs.listErr (cgroupPathOf c.cgroup) = some err) :
    stepWalker fs i s
      = some { s with walkers := s.walkers.set i ⟨c, .loop []⟩, log := s.log ++ [err] } := by
  have hd : c.depth > 0 := hdepth
  simp [stepWalker, hw, hd, ioutil_ReadDir, hfail]

theorem stepWalker_loop_nil (fs : FileSystem) (i : Nat) (s : RunState) (c : Call)
    (hw : s.walkers[i]? = some ⟨c, .loop []⟩) :
    stepWalker fs i s = some { s with walkers := s.walkers.set i ⟨c, .ret⟩ } := by
  simp [stepWalker, hw]

/-! ## Paths in a tree of directories -/

theorem componentsAux_append_slash (a b : List Char) :
    ∀ cur, componentsAux (a ++ '/' :: b) cur = componentsAux a cur ++ componentsAux b [] := by
  induction a with
  | nil =>
    intro cur
    by_cases h : cur = [] <;> simp [componentsAux, h]
  | cons c a ih =>
    intro cur
    by_cases hc : c = '/'
    · by_cases h : cur = [] <;> simp [componentsAux, hc, h, ih]
    · simp [componentsAux, hc, ih]

theorem componentsAux_of_no_slash (w : List Char) :
    ∀ cur, '/' ∉ w → componentsAux w cur = if cur ++ w = [] then [] else [⟨cur ++ w⟩] := by
  induction w with
  | nil => intro cur _; simp [componentsAux]
  | cons c w ih =>
    intro cur h
    have hc : c ≠ '/' := fun e => h (e ▸ List.mem_cons_self _ _)
    have hw : '/' ∉ w := fun e => h (List.mem_cons_of_mem _ e)
    simp [componentsAux, hc, ih _ hw]

theorem validName_iff (n : String) : validName n = true ↔ n.data ≠ [] ∧ '/' ∉ n.data := by
  simp [validName, List.isEmpty_iff]

theorem components_validName (n : String) (h : validName n = true) : components n = [n] := by
  obtain ⟨h1, h2⟩ := (validName_iff n).1 h
  unfold components
  rw [componentsAux_of_no_slash n.data [] h2]
  simp [h1]

theorem components_append_slash (x n : String) (h : validName n = true) :
    components (x ++ "/" ++ n) = components x ++ [n] := by
  have hd : (x ++ "/" ++ n).data = x.data ++ '/' :: n.data := by
    simp [String.data_append]
  unfold components
  rw [hd, componentsAux_append_slash]
  congr 1
  exact components_validName n h

theorem components_childName (x n : String) (h : validName n = true) :
    components (childName x n) = components x ++ [n] := by
  unfold childName
  split
  · exact components_append_slash x n h
  · rename_i hx
    have : x = "" := by simpa using hx
    subst this
    rw [components_validName n h]
    rfl

theorem positionOf_cgroupPathOf (x : String) :
    positionOf (cgroupPathOf x) = some (components x) := by
  have hd : (cgroupPathOf x).data = "/sys/fs/cgroup".data ++ '/' :: x.data := by
    simp [cgroupPathOf, String.data_append]
  have hc : components (cgroupPathOf x) = ["sys", "fs", "cgroup"] ++ components x := by
    unfold components
    rw [hd, componentsAux_append_slash]
    congr 1
  unfold positionOf
  rw [hc]
  simp

theorem mem_subdirNames (T : DirTree) (p : List String) (n : String) :
    n ∈ subdirNames T p ↔ p ++ [n] ∈ T.dirs := by
  unfold subdirNames
  rw [List.mem_filterMap]
  constructor
  · rintro ⟨q, hq, h⟩
    split at h
    · rename_i hc
      have := List.dropLast_append_getLast? n (by rw [h]; exact rfl)
      rw [hc.2] at this
      rw [this]
      exact hq
    · exact absurd h (by simp)
  · intro h
    refine ⟨p ++ [n], h, ?_⟩
    simp

theorem mem_dirsAt_succ (T : DirTree) (r pos : List String) (k : Nat) :
    pos ∈ dirsAt T r (k + 1) ↔ ∃ n ∈ subdirNames T r, pos ∈ dirsAt T (r ++ [n]) k := by
  induction k generalizing pos with
  | zero =>
    simp only [dirsAt, List.flatMap_cons, List.flatMap_nil, List.append_nil, List.mem_map,
      List.mem_singleton]
    constructor
    · rintro ⟨n, hn, e⟩
      exact ⟨n, hn, e.symm⟩
    · rintro ⟨n, hn, e⟩
      exact ⟨n, hn, e.symm⟩
  | succ k ih =>
    rw [dirsAt, List.mem_flatMap]
    constructor
    · rintro ⟨q, hq, hpos⟩
      obtain ⟨n, hn, hq'⟩ := (ih q).1 hq
      exact ⟨n, hn, by rw [dirsAt, List.mem_flatMap]; exact ⟨q, hq', hpos⟩⟩
    · rintro ⟨n, hn, hpos⟩
      rw [dirsAt, List.mem_flatMap] at hpos
      obtain ⟨q, hq, hpos'⟩ := hpos
      exact ⟨q, (ih q).2 ⟨n, hn, hq⟩, hpos'⟩

theorem length_of_mem_dirsAt (T : DirTree) (r : List String) :
    ∀ (k : Nat) (pos : List String), pos ∈ dirsAt T r k → pos.length = r.length + k := by
  intro k
  induction k with
  | zero => intro pos h; simp [dirsAt] at h; simp [h]
  | succ k ih =>
    intro pos h
    rw [dirsAt, List.mem_flatMap] at h
    obtain ⟨q, hq, hpos⟩ := h
    rw [List.mem_map] at hpos
    obtain ⟨n, _, rfl⟩ := hpos
    rw [List.length_append, ih q hq]
    simp
    omega

theorem mem_dirs_of_mem_dirsAt (T : DirTree) (r : List String) (hr : r ∈ T.dirs) :
    ∀ (k : Nat) (pos : List String), pos ∈ dirsAt T r k → pos ∈ T.dirs := by
  intro k
  cases k with
  | zero => intro pos h; simp [dirsAt] at h; rw [h]; exact hr
  | succ k =>
    intro pos h
    rw [dirsAt, List.mem_flatMap] at h
    obtain ⟨q, _, hpos⟩ := h
    rw [List.mem_map] at hpos
    obtain ⟨n, hn, rfl⟩ := hpos
    exact (mem_subdirNames T q n).1 hn
theorem spawned_treeFS (T : DirTree) (hlist : T.unlistable = []) (c : Call)
    (hp : components c.cgroup ∈ T.dirs) (hd : 0 < c.depth) :
    (GetFromTree (treeFS T) c).spawned
      = (subdirNames T (components c.cgroup)).map fun m =>
          ⟨childName c.cgroup m, c.depth - 1, c.controllers⟩ := by
  rw [spawned_of_pos _ _ hd]
  simp only [ioutil_ReadDir, treeFS, positionOf_cgroupPathOf, hp, hlist, spawnFor,
    List.filterMap_append, List.filterMap_map, Function.comp_def, if_true, List.not_mem_nil,
    if_false]
  have h1 : ∀ l : List String, l.filterMap (fun _ => (none : Option Call)) = [] := by
    intro l
    induction l with
    | nil => rfl
    | cons a t ih => simp [List.filterMap_cons]
  have h2 : ∀ l : List String,
      l.filterMap (fun x => some (⟨childName c.cgroup x, c.depth - 1, c.controllers⟩ : Call))
        = l.map fun m => ⟨childName c.cgroup m, c.depth - 1, c.controllers⟩ := by
    intro l
    induction l with
    | nil => rfl
    | cons a t ih => simp [List.filterMap_cons, ih]
  simp [h1, h2]

theorem mem_walk_treeFS (T : DirTree) (hT : T.WellFormed) (hlist : T.unlistable = [])
    (cs : List String) :
    ∀ (n : Nat) (cgroup : String), components cgroup ∈ T.dirs → ∀ pos,
      pos ∈ (walk (treeFS T) n ⟨cgroup, (n : Int), cs⟩).map (fun c => components c.cgroup) ↔
        ∃ k, k ≤ n ∧ pos ∈ dirsAt T (components cgroup) k := by
  intro n
  induction n with
  | zero =>
    intro cgroup _ pos
    simp only [walk, List.map_cons, List.map_nil, List.mem_singleton]
    constructor
    · rintro rfl
      exact ⟨0, le_refl _, by simp [dirsAt]⟩
    · rintro ⟨k, hk, hx⟩
      have : k = 0 := by omega
      subst this
      simpa [dirsAt] using hx
  | succ n ih =>
    intro cgroup hp pos
    have hsp := spawned_treeFS T hlist ⟨cgroup, ((n + 1 : Nat) : Int), cs⟩ hp
      (by show (0 : Int) < ((n + 1 : Nat) : Int); omega)
    have hsp' : (GetFromTree (treeFS T) ⟨cgroup, ((n + 1 : Nat) : Int), cs⟩).spawned
        = (subdirNames T (components cgroup)).map fun m =>
            ⟨childName cgroup m, (n : Int), cs⟩ := by
      rw [hsp]
      simp
    have hchild : ∀ m ∈ subdirNames T (components cgroup),
        components (childName cgroup m) = components cgroup ++ [m] ∧
          components cgroup ++ [m] ∈ T.dirs := by
      intro m hm
      have hmem := (mem_subdirNames T _ m).1 hm
      exact ⟨components_childName cgroup m (hT _ hmem m (by simp)), hmem⟩
    simp only [walk, hsp', List.map_cons, List.mem_cons, List.map_flatMap, List.mem_flatMap,
      List.flatMap_map]
    constructor
    · rintro (rfl | ⟨m, hm, hx⟩)
      · exact ⟨0, by omega, by simp [dirsAt]⟩
      · have hc := hchild m hm
        obtain ⟨k, hk, hxk⟩ := (ih (childName cgroup m) (by rw [hc.1]; exact hc.2) pos).1 hx
        rw [hc.1] at hxk
        exact ⟨k + 1, by omega, (mem_dirsAt_succ T _ pos k).2 ⟨m, hm, hxk⟩⟩
    · rintro ⟨k, hk, hx⟩
      cases k with
      | zero => left; simpa [dirsAt] using hx
      | succ k =>
        right
        obtain ⟨m, hm, hxk⟩ := (mem_dirsAt_succ T _ pos k).1 hx
        have hc := hchild m hm
        refine ⟨m, hm, (ih (childName cgroup m) (by rw [hc.1]; exact hc.2) pos).2
          ⟨k, by omega, ?_⟩⟩
        rw [hc.1]
        exact hxk

theorem nodeId_ne_empty (p : List String) (hne : p ≠ [])
    (hv : ∀ n ∈ p, validName n = true) : nodeId p ≠ "" := by
  cases p with
  | nil => exact absurd rfl hne
  | cons n t =>
    have hn := ((validName_iff n).1 (hv n (List.mem_cons_self _ _))).1
    intro e
    have hd := congrArg String.data e
    cases t with
    | nil => exact hn (by simpa [nodeId] using hd)
    | cons m rest =>
      simp [nodeId, String.data_append] at hd

theorem nodeId_concat (p : List String) (m : String) (hne : p ≠ []) :
    nodeId (p ++ [m]) = nodeId p ++ "/" ++ m := by
  induction p with
  | nil => exact absurd rfl hne
  | cons n t ih =>
    cases t with
    | nil => rfl
    | cons n' rest =>
      have := ih (by simp)
      simp only [List.cons_append] at this ⊢
      rw [nodeId, this, nodeId]
      simp only [String.append_assoc]

theorem childName_nodeId (p : List String) (m : String)
    (hv : ∀ n ∈ p, validName n = true) : childName (nodeId p) m = nodeId (p ++ [m]) := by
  by_cases hne : p = []
  · subst hne
    rfl
  · rw [nodeId_concat p m hne]
    simp [childName, nodeId_ne_empty p hne hv]

theorem components_nodeId (p : List String) :
    (∀ n ∈ p, validName n = true) → components (nodeId p) = p := by
  induction p using List.reverseRecOn with
  | nil => intro _; rfl
  | append_singleton p m ih =>
    intro hv
    have hp : ∀ n ∈ p, validName n = true := fun n hn => hv n (List.mem_append_left _ hn)
    rw [← childName_nodeId p m hp, components_childName _ m (hv m (by simp)), ih hp]

theorem walk_treeFS_nodeId (T : DirTree) (hT : T.WellFormed) (hlist : T.unlistable = [])
    (cs : List String) :
    ∀ (n : Nat) (p : List String), p ∈ T.dirs →
      ∀ c ∈ walk (treeFS T) n ⟨nodeId p, (n : Int), cs⟩,
        c.cgroup = nodeId (components c.cgroup) := by
  intro n
  induction n with
  | zero =>
    intro p hp c hc
    simp only [walk, List.mem_singleton] at hc
    subst hc
    simp only
    rw [components_nodeId p (hT p hp)]
  | succ n ih =>
    intro p hp c hc
    have hcomp := components_nodeId p (hT p hp)
    have hsp := spawned_treeFS T hlist ⟨nodeId p, ((n + 1 : Nat) : Int), cs⟩
      (by simp only; rw [hcomp]; exact hp)
      (by show (0 : Int) < ((n + 1 : Nat) : Int); omega)
    simp only [hcomp] at hsp
    rw [walk, List.mem_cons, hsp, List.mem_flatMap] at hc
    rcases hc with rfl | ⟨ch, hch, hc⟩
    · simp only
      rw [hcomp]
    · rw [List.mem_map] at hch
      obtain ⟨m, hm, rfl⟩ := hch
      have hmem := (mem_subdirNames T p m).1 hm
      have e : (⟨childName (nodeId p) m, ((n + 1 : Nat) : Int) - 1, cs⟩ : Call)
          = ⟨nodeId (p ++ [m]), (n : Int), cs⟩ := by
        rw [childName_nodeId p m (hT p hp)]
        simp
      rw [e] at hc
      exact ih (p ++ [m]) hmem c hc

/-! ## The claims -/

/-- C2: an invocation of `GetFromTree` sends on the data channel if and only if some
requested controller returned a map with at least one successfully read file; the
message sent has exactly one key, the node identifier, and its metrics map is not
empty; when no file was read nothing is sent. -/
theorem GetFromTree_sends_iff_file_read (fs : FileSystem) (c : Call) :
    ((GetFromTree fs c).sent.isSome = true ↔
      ∃ controller ∈ c.controllers, ∃ d file,
        (ReadCgroupController fs (cgroupPathOf c.cgroup) controller).1 = some d ∧
        file ∈ d.keys) ∧
    (∀ msg, (GetFromTree fs c).sent = some msg →
      GoMap.keys msg = [c.cgroup] ∧
      msg = [(c.cgroup, metricsOf fs c.cgroup c.controllers)] ∧
      0 < (metricsOf fs c.cgroup c.controllers).len) ∧
    ((∀ controller ∈ c.controllers, ∀ d,
        (ReadCgroupController fs (cgroupPathOf c.cgroup) controller).1 = some d → d.keys = []) →
      (GetFromTree fs c).sent = none) := by
  have hpos : 0 < (metricsOf fs c.cgroup c.controllers).len ↔
      ∃ controller ∈ c.controllers, ∃ d,
        (ReadCgroupController fs (cgroupPathOf c.cgroup) controller).1 = some d ∧ 0 < d.len := by
    rw [metricsOf_eq, foldl_mergeController_len_pos]
    simp [GoMap.len]
  have hpos2 : 0 < (metricsOf fs c.cgroup c.controllers).len ↔
      ∃ controller ∈ c.controllers, ∃ d file,
        (ReadCgroupController fs (cgroupPathOf c.cgroup) controller).1 = some d ∧
        file ∈ d.keys := by
    rw [hpos]
    constructor
    · rintro ⟨ctl, hctl, d, hd, hlen⟩
      obtain ⟨file, hfile⟩ := (len_pos_iff_exists_key d).1 hlen
      exact ⟨ctl, hctl, d, file, hd, hfile⟩
    · rintro ⟨ctl, hctl, d, file, hd, hfile⟩
      exact ⟨ctl, hctl, d, hd, (len_pos_iff_exists_key d).2 ⟨file, hfile⟩⟩
  refine ⟨?_, ?_, ?_⟩
  · rw [← hpos2, GetFromTree_sent]
    by_cases h : 0 < (metricsOf fs c.cgroup c.controllers).len <;> simp [h]
  · intro msg hmsg
    rw [GetFromTree_sent] at hmsg
    by_cases h : 0 < (metricsOf fs c.cgroup c.controllers).len
    · rw [if_pos h] at hmsg
      have e := (Option.some.inj hmsg).symm
      exact ⟨by rw [e]; rfl, e, h⟩
    · rw [if_neg h] at hmsg
      exact absurd hmsg (by simp)
  · intro hnone
    rw [GetFromTree_sent]
    have h : ¬ 0 < (metricsOf fs c.cgroup c.controllers).len := by
      rw [hpos2]
      rintro ⟨ctl, hctl, d, file, hd, hfile⟩
      rw [hnone ctl hctl d hd] at hfile
      simp at hfile
    rw [if_neg h]

/-- C5: for the `"memory"` controller `ReadCgroupController` returns a map that is not
`nil`, also when no file could be read, and its keys are exactly the ones of the ten
fixed file names whose read succeeds: a failed read does not abort the others. -/
theorem ReadCgroupController_memory_keys (fs : FileSystem) (cgroupPath : String) :
    memoryFiles = ["memory.current", "memory.high", "memory.min", "memory.pressure",
      "memory.low", "memory.stat", "memory.swap.high", "memory.max", "memory.swap.current",
      "memory.swap.max"] ∧
    ∃ m, (ReadCgroupController fs cgroupPath "memory").1 = some m ∧
      m.keys = memoryFiles.filter (fun f => readable fs (cgroupPath ++ "/" ++ f)) ∧
      m.keys.Nodup ∧
      (∀ f, f ∈ m.keys ↔
        f ∈ memoryFiles ∧ ∃ content, fs.ReadFile (cgroupPath ++ "/" ++ f) = .ok content) ∧
      ((∀ f ∈ memoryFiles, ∃ err, fs.ReadFile (cgroupPath ++ "/" ++ f) = .error err) →
        m = []) := by
  refine ⟨rfl, memoryData fs cgroupPath, ReadCgroupController_memory fs cgroupPath,
    memoryData_keys fs cgroupPath, memoryData_nodup fs cgroupPath, ?_, ?_⟩
  · intro f
    rw [memoryData_keys, List.mem_filter, readable_iff]
  · intro hall
    have hk : (memoryData fs cgroupPath).keys = [] := by
      rw [memoryData_keys, List.filter_eq_nil_iff]
      intro f hf
      obtain ⟨err, herr⟩ := hall f hf
      simp [readable, herr]
    simpa [GoMap.keys] using hk

/-- C7: whatever messages `build_entry` receives, the entry it emits has exactly one
top-level key, the timestamp read before the loop; every node of every message is
stored under that key; and with no message the key is present and maps to an empty
map. -/
theorem build_entry_single_timestamp (timestamp : String) (received : List Message) :
    GoMap.keys (build_entry timestamp received) = [timestamp] ∧
    build_entry timestamp received = [(timestamp, stored timestamp received)] ∧
    (∀ msg ∈ received, ∀ node ∈ GoMap.keys msg, node ∈ (stored timestamp received).keys) ∧
    (∀ node ∈ (stored timestamp received).keys, ∃ msg ∈ received, node ∈ GoMap.keys msg) ∧
    build_entry timestamp [] = [(timestamp, [])] := by
  refine ⟨?_, ?_, ?_, ?_, ?_⟩
  · rw [build_entry_eq]; rfl
  · rw [stored_eq, build_entry_eq]
  · intro msg hmsg node hnode
    rw [stored_eq, mem_keys_nodeEntries]
    exact ⟨msg, hmsg, hnode⟩
  · intro node hnode
    rw [stored_eq, mem_keys_nodeEntries] at hnode
    exact hnode
  · rw [build_entry_eq]; rfl

/-- C10: for per-node messages with pairwise distinct node identifiers, what
`build_entry` stores under the timestamp does not depend on the order of arrival: for
every permutation the stored map has the same lookups, and a node identifier is mapped
to some metrics exactly when a message with that identifier and those metrics was
sent. -/
theorem build_entry_order_independent (timestamp : String)
    (nodes arrived : List (String × GoMap String))
    (hdistinct : (nodes.map Prod.fst).Nodup) (hperm : arrived.Perm nodes) :
    (∀ node, (stored timestamp (arrived.map nodeMessage)).get? node
        = (stored timestamp (nodes.map nodeMessage)).get? node) ∧
    (∀ node metrics, (stored timestamp (arrived.map nodeMessage)).get? node = some metrics ↔
        (node, metrics) ∈ nodes) ∧
    (stored timestamp (arrived.map nodeMessage)).Perm (stored timestamp (nodes.map nodeMessage)) ∧
    (stored timestamp (arrived.map nodeMessage)).keys.Nodup := by
  have hdistinct2 : (arrived.map Prod.fst).Nodup :=
    (List.Perm.nodup_iff (hperm.map Prod.fst)).2 hdistinct
  have e1 : stored timestamp (arrived.map nodeMessage) = arrived := by
    rw [stored_eq, nodeEntries_nodeMessages arrived hdistinct2]
  have e2 : stored timestamp (nodes.map nodeMessage) = nodes := by
    rw [stored_eq, nodeEntries_nodeMessages nodes hdistinct]
  rw [e1, e2]
  have hiff : ∀ node metrics, GoMap.get? arrived node = some metrics ↔ (node, metrics) ∈ nodes := by
    intro node metrics
    rw [GoMap.get?_eq_some_iff arrived hdistinct2]
    exact hperm.mem_iff
  refine ⟨?_, hiff, hperm, hdistinct2⟩
  intro node
  cases h : GoMap.get? nodes node with
  | none =>
    cases h' : GoMap.get? arrived node with
    | none => rfl
    | some m =>
      have := (GoMap.get?_eq_some_iff nodes hdistinct node m).2 ((hiff node m).1 h')
      rw [h] at this
      exact absurd this (by simp)
  | some m =>
    exact (hiff node m).2 ((GoMap.get?_eq_some_iff nodes hdistinct node m).1 h)

/-- Witness of C10: two nodes arriving in the other order. -/
theorem build_entry_order_independent_witness :
    ((∀ node, (stored "t" ([("a/b", [("memory.current", "50")]),
          ("a", [("memory.current", "100")])].map nodeMessage)).get? node
        = (stored "t" ([("a", [("memory.current", "100")]),
          ("a/b", [("memory.current", "50")])].map nodeMessage)).get? node) ∧
    (∀ node metrics, (stored "t" ([("a/b", [("memory.current", "50")]),
          ("a", [("memory.current", "100")])].map nodeMessage)).get? node = some metrics ↔
        (node, metrics) ∈ [("a", [("memory.current", "100")]),
          ("a/b", [("memory.current", "50")])]) ∧
    (stored "t" ([("a/b", [("memory.current", "50")]),
          ("a", [("memory.current", "100")])].map nodeMessage)).Perm
      (stored "t" ([("a", [("memory.current", "100")]),
          ("a/b", [("memory.current", "50")])].map nodeMessage)) ∧
    (stored "t" ([("a/b", [("memory.current", "50")]),
          ("a", [("memory.current", "100")])].map nodeMessage)).keys.Nodup) :=
  build_entry_order_independent "t"
    [("a", [("memory.current", "100")]), ("a/b", [("memory.current", "50")])]
    [("a/b", [("memory.current", "50")]), ("a", [("memory.current", "100")])]
    (by decide) (List.Perm.swap _ _ _)

/-- C3: every file of the `"memory"` controller that is read successfully is stored
under its name with one trailing newline stripped: content ending in a newline loses
that final newline, other content is stored unchanged.  In the scenario (root `a`,
depth limit 1, child `a/b`, `memory.current` the only readable files, with content
`100` and `50` followed by a newline) the nodes visited are `a` and `a/b` and the
mapping stored under the timestamp is `a` with `memory.current = 100` and `a/b` with
`memory.current = 50`. -/
theorem ReadCgroupController_stores_trimmed (fs : FileSystem)
    (cgroupPath file content : String) (hfile : file ∈ memoryFiles)
    (hread : fs.ReadFile (cgroupPath ++ "/" ++ file) = .ok content) :
    (∃ m, (ReadCgroupController fs cgroupPath "memory").1 = some m ∧
      m.get? file = some (TrimSuffix content "\n")) ∧
    (∀ c : String, content = c ++ "\n" → TrimSuffix content "\n" = c) ∧
    ((∀ c : String, content ≠ c ++ "\n") → TrimSuffix content "\n" = content) ∧
    visited scenarioFS ⟨"a", 1, ["memory"]⟩ = ["a", "a/b"] ∧
    (∀ timestamp, build_entry timestamp (sentBy scenarioFS ⟨"a", 1, ["memory"]⟩)
      = [(timestamp, [("a", [("memory.current", "100")]),
          ("a/b", [("memory.current", "50")])])]) := by
  refine ⟨⟨memoryData fs cgroupPath, ReadCgroupController_memory fs cgroupPath, ?_⟩,
    ?_, TrimSuffix_newline_of_not content, by decide, ?_⟩
  · exact readFold_get? fs cgroupPath memoryFiles ([], []) memoryFiles_nodup file hfile
      content hread
  · intro c hc
    rw [hc]
    exact TrimSuffix_newline_append c
  · intro timestamp
    rw [build_entry_eq]
    have : nodeEntries (sentBy scenarioFS ⟨"a", 1, ["memory"]⟩)
        = [("a", [("memory.current", "100")]), ("a/b", [("memory.current", "50")])] := by
      decide
    rw [this]

/-- Witness of C3: the file `memory.current` of node `a` in the scenario. -/
theorem ReadCgroupController_stores_trimmed_witness :
    "memory.current" ∈ memoryFiles ∧
    scenarioFS.ReadFile ("/sys/fs/cgroup/a" ++ "/" ++ "memory.current") = .ok "100\n" ∧
    ((∃ m, (ReadCgroupController scenarioFS "/sys/fs/cgroup/a" "memory").1 = some m ∧
      m.get? "memory.current" = some (TrimSuffix "100\n" "\n")) ∧
    (∀ c : String, "100\n" = c ++ "\n" → TrimSuffix "100\n" "\n" = c) ∧
    ((∀ c : String, "100\n" ≠ c ++ "\n") → TrimSuffix "100\n" "\n" = "100\n") ∧
    visited scenarioFS ⟨"a", 1, ["memory"]⟩ = ["a", "a/b"] ∧
    (∀ timestamp, build_entry timestamp (sentBy scenarioFS ⟨"a", 1, ["memory"]⟩)
      = [(timestamp, [("a", [("memory.current", "100")]),
          ("a/b", [("memory.current", "50")])])])) :=
  ⟨by decide, by rfl,
    ReadCgroupController_stores_trimmed scenarioFS "/sys/fs/cgroup/a" "memory.current" "100\n"
      (by decide) (by rfl)⟩

/-- C4: for a controller name other than `"memory"`, `ReadCgroupController` returns
`nil`; the metrics of a node built from a controller list are those built from the list
with the unsupported names removed, so is the message sent, and an unsupported name
inserted anywhere in the list changes nothing. -/
theorem unsupported_controller_ignored (fs : FileSystem) (cgroupPath controller : String)
    (hunsupported : controller ≠ "memory") :
    (ReadCgroupController fs cgroupPath controller).1 = none ∧
    (∀ cgroup controllers,
      (collect fs cgroup controllers).1
        = (collect fs cgroup (controllers.filter fun n => decide (n = "memory"))).1) ∧
    (∀ cgroup depth controllers,
      (GetFromTree fs ⟨cgroup, depth, controllers⟩).sent
        = (GetFromTree fs
            ⟨cgroup, depth, controllers.filter fun n => decide (n = "memory")⟩).sent) ∧
    (∀ cgroup before after,
      (collect fs cgroup (before ++ controller :: after)).1
        = (collect fs cgroup (before ++ after)).1) := by
  refine ⟨ReadCgroupController_other fs cgroupPath controller hunsupported, ?_, ?_, ?_⟩
  · intro cgroup controllers
    rw [collect_eq_single, collect_eq_single, metricsOf_filter]
  · intro cgroup depth controllers
    rw [GetFromTree_sent, GetFromTree_sent]
    simp only [metricsOf_filter]
  · intro cgroup before after
    rw [collect_eq_single, collect_eq_single,
      metricsOf_insert_other fs cgroup controller hunsupported]

/-- Witness of C4: the controller `cpu`. -/
theorem unsupported_controller_ignored_witness :
    "cpu" ≠ "memory" ∧
    ((ReadCgroupController scenarioFS "/sys/fs/cgroup/a" "cpu").1 = none ∧
    (∀ cgroup controllers,
      (collect scenarioFS cgroup controllers).1
        = (collect scenarioFS cgroup (controllers.filter fun n => decide (n = "memory"))).1) ∧
    (∀ cgroup depth controllers,
      (GetFromTree scenarioFS ⟨cgroup, depth, controllers⟩).sent
        = (GetFromTree scenarioFS
            ⟨cgroup, depth, controllers.filter fun n => decide (n = "memory")⟩).sent) ∧
    (∀ cgroup before after,
      (collect scenarioFS cgroup (before ++ "cpu" :: after)).1
        = (collect scenarioFS cgroup (before ++ after)).1)) :=
  ⟨by decide, unsupported_controller_ignored scenarioFS "/sys/fs/cgroup/a" "cpu" (by decide)⟩

/-- C1: over a file system that is a tree of directories in which every listing
succeeds, for every root cgroup that names a directory of the tree and every depth
`d ≥ 0`, the directories `GetFromTree` is invoked on (the initial call and every call
it transitively spawns) are exactly the root and the directories of the tree at most
`d` child-directory steps below it; for a root named by its path the node identifiers
are the slash-joined names of exactly these directories; no directory more than `d`
steps below the root is visited; with `d = 0` only the root is visited.  A child
directory of a directory is a directory of the tree one name further; the invocations
contain the initial call, are closed under spawning, and no further spawn level adds
any. -/
theorem GetFromTree_visits_to_depth (T : DirTree) (hT : T.WellFormed)
    (hlist : T.unlistable = []) (root : String) (hroot : components root ∈ T.dirs)
    (d : Int) (hd : 0 ≤ d) (controllers : List String) :
    (∀ pos, pos ∈ (visited (treeFS T) ⟨root, d, controllers⟩).map components ↔
      ∃ k : Nat, (k : Int) ≤ d ∧ pos ∈ dirsAt T (components root) k) ∧
    (root = nodeId (components root) →
      ∀ node, node ∈ visited (treeFS T) ⟨root, d, controllers⟩ ↔
        ∃ k : Nat, (k : Int) ≤ d ∧ ∃ pos ∈ dirsAt T (components root) k, node = nodeId pos) ∧
    (∀ (k : Nat) (pos : List String), d < (k : Int) → pos ∈ dirsAt T (components root) k →
      pos ∉ (visited (treeFS T) ⟨root, d, controllers⟩).map components) ∧
    (d = 0 → visited (treeFS T) ⟨root, d, controllers⟩ = [root]) ∧
    (∀ p n, n ∈ subdirNames T p ↔ p ++ [n] ∈ T.dirs) ∧
    (⟨root, d, controllers⟩ : Call) ∈ invocations (treeFS T) ⟨root, d, controllers⟩ ∧
    (∀ i ∈ invocations (treeFS T) ⟨root, d, controllers⟩,
      ∀ ch ∈ (GetFromTree (treeFS T) i).spawned,
        ch ∈ invocations (treeFS T) ⟨root, d, controllers⟩) ∧
    (∀ fuel, d.toNat ≤ fuel →
      walk (treeFS T) fuel ⟨root, d, controllers⟩
        = invocations (treeFS T) ⟨root, d, controllers⟩) := by
  obtain ⟨n, rfl⟩ : ∃ n : Nat, d = (n : Int) := ⟨d.toNat, by omega⟩
  have hpos : ∀ pos, pos ∈ (visited (treeFS T) ⟨root, (n : Int), controllers⟩).map components ↔
      ∃ k : Nat, (k : Int) ≤ (n : Int) ∧ pos ∈ dirsAt T (components root) k := by
    intro pos
    have := mem_walk_treeFS T hT hlist controllers n root hroot pos
    simp only [visited, invocations, Int.toNat_ofNat, List.map_map, Function.comp_def]
    rw [this]
    constructor
    · rintro ⟨k, hk, hx⟩
      exact ⟨k, by omega, hx⟩
    · rintro ⟨k, hk, hx⟩
      exact ⟨k, by omega, hx⟩
  refine ⟨hpos, ?_, ?_, ?_, mem_subdirNames T, self_mem_walk _ _ _, ?_, ?_⟩
  · intro hcanon node
    have hid : ∀ c ∈ invocations (treeFS T) ⟨root, (n : Int), controllers⟩,
        c.cgroup = nodeId (components c.cgroup) := by
      intro c hc
      have := walk_treeFS_nodeId T hT hlist controllers n (components root) hroot c
      rw [← hcanon] at this
      exact this (by simpa [invocations] using hc)
    constructor
    · intro hnode
      obtain ⟨c, hc, rfl⟩ := List.mem_map.1 hnode
      obtain ⟨k, hk, hx⟩ := (hpos (components c.cgroup)).1
        (List.mem_map.2 ⟨c.cgroup, hnode, rfl⟩)
      exact ⟨k, hk, components c.cgroup, hx, hid c hc⟩
    · rintro ⟨k, hk, pos, hx, rfl⟩
      obtain ⟨node, hnode, hcomp⟩ := List.mem_map.1 ((hpos pos).2 ⟨k, hk, hx⟩)
      obtain ⟨c, hc, rfl⟩ := List.mem_map.1 hnode
      rw [← hcomp, ← hid c hc]
      exact hnode
  · intro k pos hk hx hvis
    obtain ⟨k', hk', hx'⟩ := (hpos pos).1 hvis
    have h1 := length_of_mem_dirsAt T _ k pos hx
    have h2 := length_of_mem_dirsAt T _ k' pos hx'
    omega
  · intro h0
    have : n = 0 := by omega
    subst this
    rfl
  · intro i hi
    exact invocations_closed _ _ i hi
  · intro fuel hfuel
    exact walk_fuel_stable _ fuel _ hfuel

/-- Witness of C1: the scenario tree, root `a`, depth limit 1: the nodes visited are
`a` and `a/b`. -/
theorem GetFromTree_visits_to_depth_witness :
    scenarioTree.WellFormed ∧ scenarioTree.unlistable = [] ∧
    components "a" ∈ scenarioTree.dirs ∧ (0 : Int) ≤ 1 ∧
    visited (treeFS scenarioTree) ⟨"a", 1, ["memory"]⟩ = ["a", "a/b"] ∧
    dirsAt scenarioTree (components "a") 0 = [["a"]] ∧
    dirsAt scenarioTree (components "a") 1 = [["a", "b"]] ∧
    ((∀ pos, pos ∈ (visited (treeFS scenarioTree) ⟨"a", 1, ["memory"]⟩).map components ↔
      ∃ k : Nat, (k : Int) ≤ 1 ∧ pos ∈ dirsAt scenarioTree (components "a") k) ∧
    ("a" = nodeId (components "a") →
      ∀ node, node ∈ visited (treeFS scenarioTree) ⟨"a", 1, ["memory"]⟩ ↔
        ∃ k : Nat, (k : Int) ≤ 1 ∧
          ∃ pos ∈ dirsAt scenarioTree (components "a") k, node = nodeId pos) ∧
    (∀ (k : Nat) (pos : List String), (1 : Int) < (k : Int) →
      pos ∈ dirsAt scenarioTree (components "a") k →
      pos ∉ (visited (treeFS scenarioTree) ⟨"a", 1, ["memory"]⟩).map components) ∧
    ((1 : Int) = 0 → visited (treeFS scenarioTree) ⟨"a", 1, ["memory"]⟩ = ["a"]) ∧
    (∀ p n, n ∈ subdirNames scenarioTree p ↔ p ++ [n] ∈ scenarioTree.dirs) ∧
    (⟨"a", 1, ["memory"]⟩ : Call) ∈ invocations (treeFS scenarioTree) ⟨"a", 1, ["memory"]⟩ ∧
    (∀ i ∈ invocations (treeFS scenarioTree) ⟨"a", 1, ["memory"]⟩,
      ∀ ch ∈ (GetFromTree (treeFS scenarioTree) i).spawned,
        ch ∈ invocations (treeFS scenarioTree) ⟨"a", 1, ["memory"]⟩) ∧
    (∀ fuel, (1 : Int).toNat ≤ fuel →
      walk (treeFS scenarioTree) fuel ⟨"a", 1, ["memory"]⟩
        = invocations (treeFS scenarioTree) ⟨"a", 1, ["memory"]⟩)) :=
  ⟨by unfold DirTree.WellFormed; decide, rfl, by decide, by decide, by decide, by decide,
    by decide,
    GetFromTree_visits_to_depth scenarioTree (by unfold DirTree.WellFormed; decide) rfl "a"
      (by decide) 1 (by decide) ["memory"]⟩

/-- C6: when the listing of the directory of a visited node with depth remaining
above zero fails, `GetFromTree` spawns no call and the node is the only one of its
subtree that is visited; what it sends is what it sends when the listing succeeds; the
invocation on any other node does the same as when this listing succeeds; and in a
run the step of the goroutine that lists the directory leaves it no file to go
through and leaves the counter of `wg_data` and the channel as they are. -/
theorem listing_failure_stops_descent (fs : FileSystem) (c : Call) (err : String)
    (hdepth : 0 < c.depth) (hfail : fs.listErr (cgroupPathOf c.cgroup) = some err) :
    (GetFromTree fs c).spawned = [] ∧
    invocations fs c = [c] ∧
    (GetFromTree fs c).sent = (GetFromTree (clearListErr fs (cgroupPathOf c.cgroup)) c).sent ∧
    (∀ other : Call, other.cgroup ≠ c.cgroup →
      (GetFromTree fs other).sent
          = (GetFromTree (clearListErr fs (cgroupPathOf c.cgroup)) other).sent ∧
      (GetFromTree fs other).spawned
          = (GetFromTree (clearListErr fs (cgroupPathOf c.cgroup)) other).spawned ∧
      (GetFromTree fs other).log
          = (GetFromTree (clearListErr fs (cgroupPathOf c.cgroup)) other).log) ∧
    (∀ (i : Nat) (s : RunState), s.walkers[i]? = some ⟨c, .list⟩ →
      ∃ s', stepWalker fs i s = some s' ∧ s'.wg_data = s.wg_data ∧
        s'.walkers = s.walkers.set i ⟨c, .loop []⟩ ∧ s'.ch_data = s.ch_data) := by
  have hsp : (GetFromTree fs c).spawned = [] := by
    rw [GetFromTree_spawned]
    exact descend_of_listErr fs c err hfail
  refine ⟨hsp, ?_, rfl, ?_, ?_⟩
  · unfold invocations
    obtain ⟨m, hm⟩ : ∃ m, c.depth.toNat = m + 1 := ⟨c.depth.toNat - 1, by omega⟩
    rw [hm, walk, hsp]
    rfl
  · intro other hne
    have hp : cgroupPathOf other.cgroup ≠ cgroupPathOf c.cgroup :=
      fun e => hne (cgroupPathOf_injective _ _ e)
    have hd : descend (clearListErr fs (cgroupPathOf c.cgroup)) other = descend fs other := by
      unfold descend ioutil_ReadDir clearListErr
      simp [hp]
    refine ⟨rfl, ?_, ?_⟩
    · rw [GetFromTree_spawned, GetFromTree_spawned, hd]
    · show _ = (collect (clearListErr fs (cgroupPathOf c.cgroup)) other.cgroup
        other.controllers).2 ++ (descend (clearListErr fs (cgroupPathOf c.cgroup)) other).2
      rw [hd]
      rfl
  · intro i s hw
    exact ⟨_, stepWalker_list_of_listErr fs i s c err hw hdepth hfail, rfl, rfl, rfl⟩

/-- Witness of C6: the scenario tree when the listing of the root directory fails. -/
theorem listing_failure_stops_descent_witness :
    (0 : Int) < (⟨"a", 1, ["memory"]⟩ : Call).depth ∧
    deniedFS.listErr (cgroupPathOf "a") = some "open /sys/fs/cgroup/a: permission denied" ∧
    visited deniedFS ⟨"a", 1, ["memory"]⟩ = ["a"] ∧
    sentBy deniedFS ⟨"a", 1, ["memory"]⟩ = [[("a", [("memory.current", "100")])]] ∧
    ((GetFromTree deniedFS ⟨"a", 1, ["memory"]⟩).spawned = [] ∧
    invocations deniedFS ⟨"a", 1, ["memory"]⟩ = [⟨"a", 1, ["memory"]⟩] ∧
    (GetFromTree deniedFS ⟨"a", 1, ["memory"]⟩).sent
      = (GetFromTree (clearListErr deniedFS (cgroupPathOf "a")) ⟨"a", 1, ["memory"]⟩).sent ∧
    (∀ other : Call, other.cgroup ≠ "a" →
      (GetFromTree deniedFS other).sent
          = (GetFromTree (clearListErr deniedFS (cgroupPathOf "a")) other).sent ∧
      (GetFromTree deniedFS other).spawned
          = (GetFromTree (clearListErr deniedFS (cgroupPathOf "a")) other).spawned ∧
      (GetFromTree deniedFS other).log
          = (GetFromTree (clearListErr deniedFS (cgroupPathOf "a")) other).log) ∧
    (∀ (i : Nat) (s : RunState), s.walkers[i]? = some ⟨⟨"a", 1, ["memory"]⟩, .list⟩ →
      ∃ s', stepWalker deniedFS i s = some s' ∧ s'.wg_data = s.wg_data ∧
        s'.walkers = s.walkers.set i ⟨⟨"a", 1, ["memory"]⟩, .loop []⟩ ∧
        s'.ch_data = s.ch_data)) :=
  ⟨by decide, by decide, by decide, by decide,
    listing_failure_stops_descent deniedFS ⟨"a", 1, ["memory"]⟩
      "open /sys/fs/cgroup/a: permission denied" (by decide) (by decide)⟩

/-- C9: in every reachable state of a run the counter of `wg_data` is the number of
`GetFromTree` invocations registered and not returned.  So the counter is zero only
when no goroutine runs and none is pending; once `main` is past `wg_data.Wait()`, and
so whenever `ch_data` is closed, no `GetFromTree` goroutine is left; a `GetFromTree`
goroutine only takes a step, a send included, while `ch_data` is open; and no step
panics (no send on a closed channel, no negative counter). -/
theorem wg_data_counts_registered (fs : FileSystem) (cfg : List Collections) (s : RunState)
    (hreach : Reachable fs cfg s) :
    s.wg_data = (registered s : Int) ∧
    (s.wg_data = 0 → s.walkers = [] ∧ s.main.pending = 0) ∧
    (s.main.pastWait = true → s.walkers = [] ∧ s.wg_data = 0) ∧
    (s.ch_data_closed = true → s.main.pastWait = true ∧ s.walkers = [] ∧ s.wg_data = 0) ∧
    (∀ i s', stepWalker fs i s = some s' → s.ch_data_closed = false) ∧
    s.panic = none ∧
    (∀ l s', step fs l s = some s' → s'.panic = none) := by
  have hc := reachable_controlInv fs cfg s hreach
  have hpast : s.main.pastWait = true → s.walkers = [] ∧ s.wg_data = 0 := by
    intro hp
    have hw := hc.walkers_done hp
    refine ⟨hw, ?_⟩
    have hpend : s.main.pending = 0 := by
      cases hm : s.main <;> rw [hm] at hp <;> first | rfl | exact absurd hp (by simp)
    have := hc.wg_data_eq
    simp only [registered, hw, hpend] at this
    simpa using this
  have hclosed : s.ch_data_closed = true →
      s.main.pastWait = true ∧ s.walkers = [] ∧ s.wg_data = 0 := by
    intro hcl
    have h5 := hc.data_closed
    rw [hcl] at h5
    have hp := pastWait_of_pastCloseData _ h5.symm
    exact ⟨hp, hpast hp⟩
  refine ⟨hc.wg_data_eq, ?_, hpast, hclosed, ?_, hc.no_panic, ?_⟩
  · intro h0
    have := hc.wg_data_eq
    rw [h0] at this
    simp only [registered] at this
    have hlen : s.walkers.length = 0 := by omega
    exact ⟨List.eq_nil_of_length_eq_zero hlen, by omega⟩
  · intro i s' hs
    cases hcl : s.ch_data_closed
    · rfl
    · have hw := (hclosed hcl).2.1
      simp [stepWalker, hw] at hs
  · intro l s' hs
    exact (controlInv_step fs l s s' hc hs).no_panic

/-- Witness of C9: the scenario when the root goroutine has registered its child and
not started it: one goroutine runs, one is pending, and the counter is 2. -/
theorem wg_data_counts_registered_witness :
    Reachable scenarioFS scenarioConfig
      (runSchedule scenarioFS (initState scenarioConfig) scenarioStart) ∧
    (runSchedule scenarioFS (initState scenarioConfig) scenarioStart).wg_data = 2 ∧
    (runSchedule scenarioFS (initState scenarioConfig) scenarioStart).walkers.length = 1 ∧
    ((runSchedule scenarioFS (initState scenarioConfig) scenarioStart).wg_data
      = (registered (runSchedule scenarioFS (initState scenarioConfig) scenarioStart) : Int) ∧
    ((runSchedule scenarioFS (initState scenarioConfig) scenarioStart).wg_data = 0 →
      (runSchedule scenarioFS (initState scenarioConfig) scenarioStart).walkers = [] ∧
      (runSchedule scenarioFS (initState scenarioConfig) scenarioStart).main.pending = 0) ∧
    ((runSchedule scenarioFS (initState scenarioConfig) scenarioStart).main.pastWait = true →
      (runSchedule scenarioFS (initState scenarioConfig) scenarioStart).walkers = [] ∧
      (runSchedule scenarioFS (initState scenarioConfig) scenarioStart).wg_data = 0) ∧
    ((runSchedule scenarioFS (initState scenarioConfig) scenarioStart).ch_data_closed = true →
      (runSchedule scenarioFS (initState scenarioConfig) scenarioStart).main.pastWait = true ∧
      (runSchedule scenarioFS (initState scenarioConfig) scenarioStart).walkers = [] ∧
      (runSchedule scenarioFS (initState scenarioConfig) scenarioStart).wg_data = 0) ∧
    (∀ i s', stepWalker scenarioFS i
        (runSchedule scenarioFS (initState scenarioConfig) scenarioStart) = some s' →
      (runSchedule scenarioFS (initState scenarioConfig) scenarioStart).ch_data_closed
        = false) ∧
    (runSchedule scenarioFS (initState scenarioConfig) scenarioStart).panic = none ∧
    (∀ l s', step scenarioFS l
        (runSchedule scenarioFS (initState scenarioConfig) scenarioStart) = some s' →
      s'.panic = none)) :=
  ⟨reachable_runSchedule scenarioFS scenarioConfig scenarioStart _ Reachable.init,
    by decide, by decide,
    wg_data_counts_registered scenarioFS scenarioConfig _
      (reachable_runSchedule scenarioFS scenarioConfig scenarioStart _ Reachable.init)⟩

/-- C8: under every schedule of the goroutines, when `main` holds the result it is a
single timestamp mapped to node entries with pairwise distinct identifiers, and a node
is mapped to some metrics exactly when an invocation of `GetFromTree` of a configured
collection visited it and read these metrics, not empty, for it: no entry is dropped,
none is added and none is duplicated.  And every schedule gets there: a state in which
`main` has no result yet can take a step, every step lowers the bound `stepsLeft`, and
some schedule from the state ends with `main` holding the result. -/
theorem snapshot_has_every_node_once (fs : FileSystem) (cfg : List Collections)
    (s : RunState) (hreach : Reachable fs cfg s) :
    (∀ result, s.main = .done result →
      ∃ timestamp nodes, result = [(timestamp, nodes)] ∧ nodes.keys.Nodup ∧
        ∀ node metrics, nodes.get? node = some metrics ↔
          ∃ c ∈ cfg, ∃ i ∈ invocations fs c.toCall, i.cgroup = node ∧
            metricsOf fs i.cgroup i.controllers = metrics ∧ 0 < metrics.len) ∧
    (s.main.isDone = false → ∃ l s', step fs l s = some s') ∧
    (∀ l s', step fs l s = some s' → stepsLeft fs s' < stepsLeft fs s) ∧
    (∃ ls, (runSchedule fs s ls).main.isDone = true) := by
  have hc := reachable_controlInv fs cfg s hreach
  refine ⟨?_, can_step fs s hc, fun l s' hs => stepsLeft_step fs l s s' hc hs,
    exists_complete_schedule fs _ s hc (le_refl _)⟩
  intro result hdone
  obtain ⟨ts, received, hres, hmem⟩ := reachable_done fs cfg s result hreach hdone
  refine ⟨ts, nodeEntries received, ?_, nodup_keys_nodeEntries received, ?_⟩
  · rw [hres, build_entry_eq]
  · intro node metrics
    exact get?_nodeEntries_expected fs cfg received hmem node metrics

/-- Witness of C8: a complete run of the scenario. -/
theorem snapshot_has_every_node_once_witness :
    Reachable scenarioFS scenarioConfig
      (runSchedule scenarioFS (initState scenarioConfig) scenarioSchedule) ∧
    (runSchedule scenarioFS (initState scenarioConfig) scenarioSchedule).main
      = .done [("2023-02-05T10:00:00Z",
          [("a", [("memory.current", "100")]), ("a/b", [("memory.current", "50")])])] ∧
    ((∀ result,
      (runSchedule scenarioFS (initState scenarioConfig) scenarioSchedule).main = .done result →
      ∃ timestamp nodes, result = [(timestamp, nodes)] ∧ nodes.keys.Nodup ∧
        ∀ node metrics, nodes.get? node = some metrics ↔
          ∃ c ∈ scenarioConfig, ∃ i ∈ invocations scenarioFS c.toCall, i.cgroup = node ∧
            metricsOf scenarioFS i.cgroup i.controllers = metrics ∧ 0 < metrics.len) ∧
    ((runSchedule scenarioFS (initState scenarioConfig) scenarioSchedule).main.isDone = false →
      ∃ l s', step scenarioFS l
        (runSchedule scenarioFS (initState scenarioConfig) scenarioSchedule) = some s') ∧
    (∀ l s', step scenarioFS l
        (runSchedule scenarioFS (initState scenarioConfig) scenarioSchedule) = some s' →
      stepsLeft scenarioFS s'
        < stepsLeft scenarioFS
            (runSchedule scenarioFS (initState scenarioConfig) scenarioSchedule)) ∧
    (∃ ls, (runSchedule scenarioFS
        (runSchedule scenarioFS (initState scenarioConfig) scenarioSchedule) ls).main.isDone
          = true)) :=
  ⟨reachable_runSchedule scenarioFS scenarioConfig scenarioSchedule _ Reachable.init,
    by decide,
    snapshot_has_every_node_once scenarioFS scenarioConfig _
      (reachable_runSchedule scenarioFS scenarioConfig scenarioSchedule _ Reachable.init)⟩

end Cgar
